import Mathlib

/-!
Verification development for the SaioMusic metadata/waveform
extraction-and-caching pipeline (src/saio_music/ui/main_window.py and
src/saio_music/ui/widgets.py).

The Python code is shallowly embedded: Python strings are `List Char`,
Python heterogeneous values (the contents of the JSON-backed tag cache and
of mutagen tag containers) are the inductive type `Val`, dictionaries are
association lists, and the filesystem (path resolution and `stat`) is an
explicit `FS` record.  External libraries (Qt image re-encoding) enter as
explicit function parameters.  Machine floats are modelled as exact
rationals; this abstraction is noted at each definition it touches.
-/

namespace SaioMusic

/-- Python strings are modelled as lists of characters. -/
abbrev PStr := List Char

/-- Whitespace as recognised by `str.strip` / the regex class `\s`
(restricted to the ASCII whitespace characters; the Unicode extras that
Python also strips never occur in the inputs considered here). -/
def pyIsSpace (c : Char) : Bool :=
  c == ' ' || c == '\t' || c == '\n' || c == '\r' || c == '\x0b' || c == '\x0c'

/-- Remove trailing characters satisfying `p` (the right half of
`str.strip`), written recursively so that proofs go by structural
induction. -/
def rstripP (p : Char → Bool) : List Char → List Char
  | [] => []
  | x :: xs =>
    match rstripP p xs with
    | [] => if p x then [] else [x]
    | ys => x :: ys

/-- `str.strip()`: drop leading and trailing whitespace. -/
def pyStrip (s : PStr) : PStr :=
  rstripP pyIsSpace (s.dropWhile pyIsSpace)

/-- The Python idiom `s or None` applied to a string: an empty string
collapses to `None`. -/
def orNone (s : PStr) : Option PStr :=
  if s = [] then none else some s

/-- Heterogeneous Python values as they occur in the tag cache (whose
durable form is JSON) and in mutagen tag containers.  `vnone` stands for
Python `None`, `vdict` for a `dict` (an association list of string keys),
`vframe` for a mutagen frame object carrying optional `data` / `text`
attributes, and `vother` for any other opaque object. -/
inductive Val where
  | vnone
  | vbool (b : Bool)
  | vint (n : Int)
  | vrat (q : ℚ)
  | vstr (s : PStr)
  | vbytes (b : List Nat)
  | vlist (vs : List Val)
  | vdict (entries : List (PStr × Val))
  | vframe (dataAttr : Option Val) (textAttr : Option Val)
  | vother

/-- Python truthiness (`if not value: ...`) for the values of `Val`. -/
def pyTruthy : Val → Bool
  | .vnone => false
  | .vbool b => b
  | .vint n => n != 0
  | .vrat q => q != 0
  | .vstr s => s != []
  | .vbytes b => b != []
  | .vlist vs => !vs.isEmpty
  | .vdict e => !e.isEmpty
  | .vframe _ _ => true
  | .vother => true

/-- Render an integer the way Python `str` does. -/
def intStr (n : Int) : PStr := (toString n).toList

/-- Python `str(value)`.  Strings render as themselves; for container,
bytes and opaque values only the (non-empty) shape of the rendering
matters to the code under verification, so their renderings are kept
schematic (e.g. element quoting inside `str` of a list is not
reproduced). -/
def pyStr : Val → PStr
  | .vnone => ("None").toList
  | .vbool true => ("True").toList
  | .vbool false => ("False").toList
  | .vint n => intStr n
  | .vrat q => (toString q).toList
  | .vstr s => s
  | .vbytes b => ('b') :: ('<') :: (b.map Char.ofNat) ++ [('>')]
  | .vlist _ => [('['), (']')]
  | .vdict _ => [(Char.ofNat 123), (Char.ofNat 125)]
  | .vframe _ _ => ('<') :: ('f') :: [('>')]
  | .vother => ('<') :: ('o') :: [('>')]

/-- Worker for UTF-8 decoding with `errors="ignore"`.  The fuel argument
(instantiated with the length of the byte list, which bounds the number
of steps since every step consumes at least one byte) only serves
structural termination. -/
def decodeUtf8Aux : Nat → List Nat → List Char
  | 0, _ => []
  | _, [] => []
  | fuel + 1, b :: rest =>
    if b < 0x80 then Char.ofNat b :: decodeUtf8Aux fuel rest
    else if b < 0xc2 then decodeUtf8Aux fuel rest
    else if b < 0xe0 then
      match rest with
      | b2 :: rest2 =>
        if 0x80 ≤ b2 ∧ b2 < 0xc0 then
          Char.ofNat ((b - 0xc0) * 64 + (b2 - 0x80)) :: decodeUtf8Aux fuel rest2
        else decodeUtf8Aux fuel rest
      | [] => []
    else if b < 0xf0 then
      match rest with
      | b2 :: b3 :: rest3 =>
        if (0x80 ≤ b2 ∧ b2 < 0xc0 ∧ (b ≠ 0xe0 ∨ 0xa0 ≤ b2) ∧ (b ≠ 0xed ∨ b2 < 0xa0))
            ∧ 0x80 ≤ b3 ∧ b3 < 0xc0 then
          Char.ofNat ((b - 0xe0) * 4096 + (b2 - 0x80) * 64 + (b3 - 0x80))
            :: decodeUtf8Aux fuel rest3
        else decodeUtf8Aux fuel rest
      | _ => []
    else if b < 0xf5 then
      match rest with
      | b2 :: b3 :: b4 :: rest4 =>
        if (0x80 ≤ b2 ∧ b2 < 0xc0 ∧ (b ≠ 0xf0 ∨ 0x90 ≤ b2) ∧ (b ≠ 0xf4 ∨ b2 < 0x90))
            ∧ (0x80 ≤ b3 ∧ b3 < 0xc0) ∧ 0x80 ≤ b4 ∧ b4 < 0xc0 then
          Char.ofNat ((b - 0xf0) * 262144 + (b2 - 0x80) * 4096
              + (b3 - 0x80) * 64 + (b4 - 0x80)) :: decodeUtf8Aux fuel rest4
        else decodeUtf8Aux fuel rest
      | _ => []
    else decodeUtf8Aux fuel rest

/-- UTF-8 decoding with `errors="ignore"`: invalid lead bytes and
truncated or malformed sequences are skipped.  Overlong encodings and
surrogate code points are rejected, as CPython does. -/
def decodeUtf8Ignore (l : List Nat) : List Char :=
  decodeUtf8Aux l.length l

/-- The scalar tail of `_coerce_text` (main_window.py:1436-1441): the part
after a list/tuple has been replaced by its first element.  Bytes are
decoded as UTF-8 with invalid sequences dropped; everything else goes
through `str`; the result is stripped and an empty result collapses to
`None`. -/
def coerceScalar : Val → Option PStr
  | .vbytes b => orNone (pyStrip (decodeUtf8Ignore b))
  | v => orNone (pyStrip (pyStr v))

/-- `_coerce_text` (main_window.py:1429-1441). -/
def coerceText : Val → Option PStr
  | .vnone => none
  | .vlist [] => none
  | .vlist (x :: _) => coerceScalar x
  | v => coerceScalar v

/-! ## Base64 (the parts of Python `base64` used by the cache) -/

/-- The standard base64 alphabet. -/
def b64chars : List Char :=
  ("ABCDEFGHIJKLMNOPQRSTUVWXYZabcdefghijklmnopqrstuvwxyz0123456789+/").toList

/-- Character of a sextet. -/
def b64tbl (k : Nat) : Char := b64chars.getD k 'A'

/-- Sextet of a character, `none` for characters outside the alphabet. -/
def b64dec (c : Char) : Option Nat := b64chars.indexOf? c

/-- Membership in the base64 alphabet (padding included); characters
outside it are discarded by `base64.b64decode` before decoding. -/
def isB64Char (c : Char) : Bool := (b64dec c).isSome || c == '='

/-- `base64.b64encode` on a byte list, producing the padded character
form (the code stores the result decoded as ASCII text). -/
def b64encode : List Nat → List Char
  | [] => []
  | [b1] => [b64tbl (b1 / 4), b64tbl (b1 % 4 * 16), '=', '=']
  | [b1, b2] => [b64tbl (b1 / 4), b64tbl (b1 % 4 * 16 + b2 / 16), b64tbl (b2 % 16 * 4), '=']
  | b1 :: b2 :: b3 :: rest =>
    b64tbl (b1 / 4) :: b64tbl (b1 % 4 * 16 + b2 / 16)
      :: b64tbl (b2 % 16 * 4 + b3 / 64) :: b64tbl (b3 % 64) :: b64encode rest

/-- Decode a list of base64-alphabet characters, four at a time; `=`
padding is accepted only at the very end and incorrect padding yields
`none` (Python raises `binascii.Error`, which the callers turn into
`None`; inputs that never arise from `b64encode` outputs are handled in
this Error-to-`none` spirit). -/
def b64decodeGroups : List Char → Option (List Nat)
  | [] => some []
  | c1 :: c2 :: c3 :: c4 :: rest =>
    if c3 = '=' ∧ c4 = '=' ∧ rest = [] then do
      let s1 ← b64dec c1
      let s2 ← b64dec c2
      pure [s1 * 4 + s2 / 16]
    else if c4 = '=' ∧ rest = [] then do
      let s1 ← b64dec c1
      let s2 ← b64dec c2
      let s3 ← b64dec c3
      pure [s1 * 4 + s2 / 16, s2 % 16 * 16 + s3 / 4]
    else do
      let s1 ← b64dec c1
      let s2 ← b64dec c2
      let s3 ← b64dec c3
      let s4 ← b64dec c4
      let tail ← b64decodeGroups rest
      pure ((s1 * 4 + s2 / 16) :: (s2 % 16 * 16 + s3 / 4) :: (s3 % 4 * 64 + s4) :: tail)
  | _ => none

/-- `base64.b64decode` on text (default non-validating mode): characters
outside the alphabet are discarded, then the rest is decoded in groups of
four. -/
def b64decode (s : List Char) : Option (List Nat) :=
  b64decodeGroups (s.filter isB64Char)

/-! ## Dictionaries (Python `dict` as association lists) -/

/-- `d.get(k)` (returning `none` when the key is absent). -/
def dictGet {β : Type} (d : List (PStr × β)) (k : PStr) : Option β :=
  match d with
  | [] => none
  | (k1, v) :: rest => if k1 = k then some v else dictGet rest k

/-- `d[k] = v`: replace the binding in place, or append it. -/
def dictSet {β : Type} (d : List (PStr × β)) (k : PStr) (v : β) : List (PStr × β) :=
  match d with
  | [] => [(k, v)]
  | (k1, v1) :: rest => if k1 = k then (k, v) :: rest else (k1, v1) :: dictSet rest k v

/-- `entry.get(k)` where a missing key and a stored `None` are both
Python `None` (the code never distinguishes them). -/
def entGet (e : List (PStr × Val)) (k : PStr) : Val :=
  (dictGet e k).getD .vnone

/-! ## The filesystem and the cache state -/

/-- The filesystem as seen by the cache code: `resolve` models
`Path.resolve()` (the cache key function) and `mtimeNs` models
`path.stat().st_mtime_ns`, with `none` standing for an `OSError`. -/
structure FS where
  resolve : PStr → PStr
  mtimeNs : PStr → Option Int

/-- The in-memory cache `self._tags_cache`: resolved path → entry
(normally a dict, but a hand-edited durable cache can hold anything). -/
abbrev Cache := List (PStr × Val)

/-- Python `value == mtime_ns` where `mtime_ns : int` (numeric values of
different types compare by value, everything else is unequal). -/
def pyEqInt (v : Val) (m : Int) : Bool :=
  match v with
  | .vint n => n == m
  | .vrat q => q == (m : ℚ)
  | .vbool b => (if b then (1 : Int) else 0) == m
  | _ => false

/-- The metadata record passed around as a `dict[str, str | bytes | None]`
with exactly these keys (`info` in `_read_tags`, and the result shape of
`_get_cached_tags`). -/
structure Info where
  artist : Option PStr
  title : Option PStr
  label : Option PStr
  genre : Option PStr
  bpm : Option PStr
  comments : Option PStr
  cover_data : Option (List Nat)
deriving DecidableEq

/-- A `str | None` field as the `Val` stored in the cache dict. -/
def optVal : Option PStr → Val
  | none => .vnone
  | some s => .vstr s

def kMtime : PStr := ("mtime_ns").toList
def kArtist : PStr := ("artist").toList
def kTitle : PStr := ("title").toList
def kLabel : PStr := ("label").toList
def kGenre : PStr := ("genre").toList
def kBpm : PStr := ("bpm").toList
def kComments : PStr := ("comments").toList
def kCover : PStr := ("cover_data").toList
def kWaveform : PStr := ("waveform").toList

/-! ## Cache reads and writes -/

/-- `_get_cached_tags` (main_window.py:1256-1284): look the resolved path
up, require a dict entry, require a stat-able file whose
`st_mtime_ns` equals the stored fingerprint, then return the coerced
fields (cover art base64-decoded from its stored text form). -/
def getCachedTags (fs : FS) (cache : Cache) (path : PStr) : Option Info :=
  let key := fs.resolve path
  match dictGet cache key with
  | some (.vdict entry) =>
    match fs.mtimeNs path with
    | none => none
    | some t =>
      if pyEqInt (entGet entry kMtime) t then
        let coverBytes :=
          match entGet entry kCover with
          | .vstr s => b64decode s
          | _ => none
        some
          { artist := coerceText (entGet entry kArtist)
            title := coerceText (entGet entry kTitle)
            label := coerceText (entGet entry kLabel)
            genre := coerceText (entGet entry kGenre)
            bpm := coerceText (entGet entry kBpm)
            comments := coerceText (entGet entry kComments)
            cover_data := coverBytes }
      else none
  | _ => none

/-- `_encode_cover_thumbnail` (main_window.py:1455-1466).  The Qt image
pipeline (decode, 60x60 scale, PNG re-encode) is external; it enters as
the parameter `thumbPng`, with `none` covering both a null image and a
failed save.  Its PNG output is then base64-encoded, exactly as the
source does. -/
def encodeCoverThumbnail (thumbPng : List Nat → Option (List Nat))
    (cover : List Nat) : Option PStr :=
  (thumbPng cover).map b64encode

/-- The `entry.update({...})` step of `_store_cached_tags`
(main_window.py:1302-1313): set the fingerprint and the seven metadata
fields, preserving every other key (notably `waveform`). -/
def tagEntryUpdate (e0 : List (PStr × Val)) (t : Int)
    (a ti l g bp cm cov : Val) : List (PStr × Val) :=
  dictSet (dictSet (dictSet (dictSet (dictSet (dictSet (dictSet (dictSet e0
    kMtime (.vint t)) kArtist a) kTitle ti) kLabel l) kGenre g) kBpm bp)
    kComments cm) kCover cov

/-- `_store_cached_tags` (main_window.py:1286-1315): stat the file (an
`OSError` aborts the store), re-encode the cover to a thumbnail, then
update the existing entry (an absent or non-dict entry starts from `{}`)
with the fingerprint and all metadata fields, preserving every other key
(notably `waveform`), and set the dirty flag. -/
def storeCachedTags (thumbPng : List Nat → Option (List Nat)) (fs : FS)
    (cache : Cache) (dirty : Bool) (path : PStr) (info : Info) : Cache × Bool :=
  match fs.mtimeNs path with
  | none => (cache, dirty)
  | some t =>
    let coverEncoded : Val :=
      match info.cover_data with
      | some b =>
        match encodeCoverThumbnail thumbPng b with
        | some s => .vstr s
        | none => .vnone
      | none => .vnone
    let key := fs.resolve path
    let entry0 :=
      match dictGet cache key with
      | some (.vdict e) => e
      | _ => []
    let entry := tagEntryUpdate entry0 t (optVal info.artist) (optVal info.title)
      (optVal info.label) (optVal info.genre) (optVal info.bpm)
      (optVal info.comments) coverEncoded
    (dictSet cache key (.vdict entry), true)

/-- Python `float(value)` restricted to the values that can appear in a
JSON-loaded cache, with finite floats modelled as exact rationals
(strings denoting infinities or NaN fall outside the rational embedding
and are treated as unconvertible). -/
def parseFloatStr (s : PStr) : Option ℚ :=
  let t := pyStrip s
  let core := if t.head? = some '-' ∨ t.head? = some '+' then t.tail else t
  let sign : ℚ := if t.head? = some '-' then -1 else 1
  let mantExp := core.splitOnP (fun c => c == 'e' || c == 'E')
  match mantExp with
  | [mant] =>
    (parseMant mant).map (fun q => sign * q)
  | [mant, expPart] => do
    let q ← parseMant mant
    let e ← parseExp expPart
    pure (sign * q * (10 : ℚ) ^ e)
  | _ => none
where
  digitsVal (l : List Char) : Nat := l.foldl (fun a c => a * 10 + c.toNat - 48) 0
  parseMant (m : List Char) : Option ℚ :=
    match m.splitOnP (fun c => c == '.') with
    | [ip] =>
      if ip ≠ [] ∧ ip.all Char.isDigit then some ((digitsVal ip : ℚ)) else none
    | [ip, fp] =>
      if (ip ≠ [] ∨ fp ≠ []) ∧ ip.all Char.isDigit ∧ fp.all Char.isDigit then
        some ((digitsVal ip : ℚ) + (digitsVal fp : ℚ) / (10 : ℚ) ^ fp.length)
      else none
    | _ => none
  parseExp (x : List Char) : Option Int :=
    let body := if x.head? = some '-' ∨ x.head? = some '+' then x.tail else x
    if body ≠ [] ∧ body.all Char.isDigit then
      some (if x.head? = some '-' then -(digitsVal body : Int) else (digitsVal body : Int))
    else none

/-- Python `float(value)` over `Val`: real numbers and bools convert,
strings are parsed, everything else raises `TypeError`/`ValueError`
(modelled as `none`). -/
def pyFloat : Val → Option ℚ
  | .vrat q => some q
  | .vint n => some (n : ℚ)
  | .vbool b => some (if b then 1 else 0)
  | .vstr s => parseFloatStr s
  | _ => none

/-- `_get_cached_waveform` (main_window.py:1320-1340): same entry and
fingerprint checks as the tag read; then the stored `waveform` must be a
list, whose elements are converted with `float(...)`, silently dropping
the ones that raise. -/
def getCachedWaveform (fs : FS) (cache : Cache) (path : PStr) : Option (List ℚ) :=
  let key := fs.resolve path
  match dictGet cache key with
  | some (.vdict entry) =>
    match fs.mtimeNs path with
    | none => none
    | some t =>
      if pyEqInt (entGet entry kMtime) t then
        match entGet entry kWaveform with
        | .vlist vs => some (vs.filterMap pyFloat)
        | _ => none
      else none
  | _ => none

/-- The two assignments `entry["mtime_ns"] = mtime_ns;
entry["waveform"] = samples` of `_store_cached_waveform`
(main_window.py:1351-1352). -/
def wfEntryUpdate (e0 : List (PStr × Val)) (t : Int) (samples : List ℚ) :
    List (PStr × Val) :=
  dictSet (dictSet e0 kMtime (.vint t)) kWaveform (.vlist (samples.map .vrat))

/-- `_store_cached_waveform` (main_window.py:1342-1354): stat the file
(an `OSError` aborts), then set only `mtime_ns` and `waveform` on the
existing entry (an absent or non-dict entry starts from `{}`) and mark
the cache dirty. -/
def storeCachedWaveform (fs : FS) (cache : Cache) (dirty : Bool) (path : PStr)
    (samples : List ℚ) : Cache × Bool :=
  match fs.mtimeNs path with
  | none => (cache, dirty)
  | some t =>
    let key := fs.resolve path
    let entry0 :=
      match dictGet cache key with
      | some (.vdict e) => e
      | _ => []
    (dictSet cache key (.vdict (wfEntryUpdate entry0 t samples)), true)

/-! ## Tag extraction (`_first_tag`, `_extract_comment`, `_extract_cover`,
and the fresh-extraction block of `_read_tags`) -/

/-- A mutagen tag container: its `dict`-like entries plus, when the
container is ID3, the result of `tags.getall("APIC")` (`none` models a
container without a `getall` attribute). -/
structure TagsObj where
  entries : List (PStr × Val)
  getallAPIC : Option (List Val)

/-- A mutagen file object as used by `_read_tags`: the `tags` attribute
(Python `None` for a tagless file) and the `pictures` attribute
(`getattr(audio, "pictures", None)` yields `vnone` when absent). -/
structure Audio where
  tags : Option TagsObj
  pictures : Val

/-- `getattr(frame, "text", None)`. -/
def attrText : Val → Val
  | .vframe _ t => t.getD .vnone
  | _ => .vnone

/-- `frame.data` read as bytes; `none` covers an absent attribute and a
non-bytes value (such shapes never reach the cache). -/
def attrDataBytes : Val → Option (List Nat)
  | .vframe (some (.vbytes b)) _ => some b
  | _ => none

/-- `value[0]` on the sequence shapes the code indexes; `none` models the
`TypeError`/`IndexError` that indexing anything else raises. -/
def pyIndex0 : Val → Option Val
  | .vlist (x :: _) => some x
  | .vstr (c :: _) => some (.vstr [c])
  | .vbytes (b :: _) => some (.vint (b : Int))
  | _ => none

/-- `_first_tag` (main_window.py:1356-1364) over the tag dict: walk the
key aliases, skip falsy values, and return `str` of the value (of its
first element for a list or tuple — which is then necessarily non-empty,
since an empty one is falsy).  Note that the result is *not* stripped. -/
def firstTag (tags : List (PStr × Val)) : List PStr → Option PStr
  | [] => none
  | k :: rest =>
    match dictGet tags k with
    | none => firstTag tags rest
    | some v =>
      if !pyTruthy v then firstTag tags rest
      else
        match v with
        | .vlist vs => some (pyStr (vs.headD .vnone))
        | _ => some (pyStr v)

/-- The `COMM`-scanning loop of `_extract_comment`
(main_window.py:1420-1425). -/
def scanComm : List (PStr × Val) → Option PStr
  | [] => none
  | (k, v) :: rest =>
    if ("COMM").toList.isPrefixOf k then
      let text := attrText v
      if pyTruthy text then (pyIndex0 text).map pyStr
      else scanComm rest
    else scanComm rest

/-- `_extract_comment` (main_window.py:1406-1427). -/
def extractComment (audio : Audio) : Option PStr :=
  match audio.tags with
  | none => none
  | some tobj =>
    let t := tobj.entries
    match coerceText (entGet t (("comment").toList)) with
    | some c => some c
    | none =>
      match coerceText (entGet t kComments) with
      | some c => some c
      | none =>
        match coerceText (entGet t (("COMMENT").toList)) with
        | some c => some c
        | none =>
          match coerceText (entGet t (Char.ofNat 0xa9 :: ("cmt").toList)) with
          | some c => some c
          | none => scanComm t

/-- `_coerce_bytes` (main_window.py:1443-1453): raw bytes (or a
bytearray, which `Val` does not distinguish from bytes) pass through,
text is base64-decoded (failure yields `None`), anything else is
`None`. -/
def coerceBytes : Val → Option (List Nat)
  | .vbytes b => some b
  | .vstr s => b64decode s
  | _ => none

/-- The `APIC`-prefix key scan of `_extract_cover`
(main_window.py:1378-1383). -/
def scanApic : List (PStr × Val) → Option (List Nat)
  | [] => none
  | (k, v) :: rest =>
    if ("APIC").toList.isPrefixOf k then
      match v with
      | .vframe (some (.vbytes b)) _ => some b
      | _ => scanApic rest
    else scanApic rest

/-- The `metadata_block_picture` branch of `_extract_cover`
(main_window.py:1396-1402) for one key. -/
def mbpBranch (t : List (PStr × Val)) (k : PStr) : Option (Option (List Nat)) :=
  match dictGet t k with
  | none => none
  | some v =>
    match v with
    | .vlist (x :: _) => some (coerceBytes x)
    | .vbytes b => some (some b)
    | _ => none

/-- `_extract_cover` (main_window.py:1366-1404): `getall("APIC")`, then
an `APIC`-prefix key scan, then the `pictures` attribute, then the `covr`
atom, then the base64 `METADATA_BLOCK_PICTURE` field under two casings.
First branch that *returns* wins; a branch that returns a non-bytes value
is modelled as returning `none`. -/
def extractCover (audio : Audio) : Option (List Nat) :=
  match audio.tags with
  | none => none
  | some tobj =>
    let t := tobj.entries
    let afterGetall :=
      match tobj.getallAPIC with
      | some (f :: _) => some (attrDataBytes f)
      | _ => none
    match afterGetall with
    | some r => r
    | none =>
      match scanApic t with
      | some b => some b
      | none =>
        if pyTruthy audio.pictures then
          match audio.pictures with
          | .vlist (p :: _) => attrDataBytes p
          | _ => none
        else
          let covr := entGet t (("covr").toList)
          if pyTruthy covr then (pyIndex0 covr).bind coerceBytes
          else
            match mbpBranch t (("metadata_block_picture").toList) with
            | some r => r
            | none =>
              match mbpBranch t (("METADATA_BLOCK_PICTURE").toList) with
              | some r => r
              | none => none

/-- Truthiness of a `str | None` field (`if not info["comments"]`). -/
def optFalsy : Option PStr → Bool
  | none => true
  | some s => s.isEmpty

/-- The fresh-extraction block of `_read_tags`
(main_window.py:1220-1254): build the all-`None` record, fill the textual
fields from the easy view via `_first_tag`, then fill the comment
fallback and the cover from the raw view.  The result `none` models the
`AttributeError` that `None.get(key)` raises when the easy view has
`tags = None`.  (The final `_store_cached_tags` call of that block is the
already-embedded `storeCachedTags`; it does not affect the returned
record.) -/
def readTagsFresh (easy full : Option Audio) : Option Info :=
  let base : Info :=
    { artist := none, title := none, label := none, genre := none,
      bpm := none, comments := none, cover_data := none }
  let step1 : Option Info :=
    match easy with
    | none => some base
    | some audio =>
      match audio.tags with
      | none => none
      | some tobj =>
        some
          { base with
            artist := firstTag tobj.entries [kArtist]
            title := firstTag tobj.entries [kTitle]
            label := firstTag tobj.entries
              [kLabel, ("organization").toList, ("publisher").toList]
            genre := firstTag tobj.entries [kGenre, ("tcon").toList]
            bpm := firstTag tobj.entries [kBpm, ("tbpm").toList]
            comments := firstTag tobj.entries [("comment").toList, kComments] }
  match step1 with
  | none => none
  | some info1 =>
    match full with
    | none => some info1
    | some audio =>
      some
        { info1 with
          comments :=
            if optFalsy info1.comments then extractComment audio else info1.comments
          cover_data := extractCover audio }

/-! ## Camelot key parsing -/

/-- The regex word-character class `\w` (restricted to ASCII, which
covers every Camelot key form). -/
def isWordChar (c : Char) : Bool := c.isAlphanum || c == '_'

/-- Is the character at index `i` a word character (out of range counts
as non-word)? -/
def wordAt (s : PStr) (i : Nat) : Bool := ((s[i]?).map isWordChar).getD false

/-- The regex anchor `\b` at position `i` (between characters `i - 1`
and `i`). -/
def boundaryAt (s : PStr) (i : Nat) : Bool :=
  match i with
  | 0 => wordAt s 0
  | j + 1 => wordAt s j != wordAt s (j + 1)

/-- Index of the first non-whitespace character at or after `j` (the
greedy `\s*`; backtracking is irrelevant because `[ABab]` matches no
whitespace character). -/
def skipWs (s : PStr) (j : Nat) : Nat :=
  j + ((s.drop j).takeWhile pyIsSpace).length

def digitVal (c : Char) : Nat := c.toNat - 48

/-- Match the suffix `\s*([ABab])\b` of the Camelot regex starting at
position `j`, returning the letter. -/
def matchModeTail (s : PStr) (j : Nat) : Option Char :=
  let k := skipWs s j
  match s[k]? with
  | some c =>
    if (c == 'A' || c == 'B' || c == 'a' || c == 'b') && boundaryAt s (k + 1) then
      some c
    else none
  | none => none

/-- The alternative `1[0-2]` of the Camelot regex followed by the tail,
at position `i`. -/
def matchTwoDigit (s : PStr) (i : Nat) : Option (Nat × Char) :=
  match s[i]?, s[i + 1]? with
  | some c1, some c2 =>
    if c1 == '1' && (c2 == '0' || c2 == '1' || c2 == '2') then
      (matchModeTail s (i + 2)).map (fun c => (10 + digitVal c2, c))
    else none
  | _, _ => none

/-- The alternative `[1-9]` of the Camelot regex followed by the tail,
at position `i`. -/
def matchOneDigit (s : PStr) (i : Nat) : Option (Nat × Char) :=
  match s[i]? with
  | some c1 =>
    if c1.isDigit && !(c1 == '0') then
      (matchModeTail s (i + 1)).map (fun c => (digitVal c1, c))
    else none
  | none => none

/-- Match `\b(1[0-2]|[1-9])\s*([ABab])\b` at position `i`, with the
regex alternation order (`1[0-2]` first, falling back to `[1-9]`). -/
def matchKeyAt (s : PStr) (i : Nat) : Option (Nat × Char) :=
  if !boundaryAt s i then none
  else matchTwoDigit s i <|> matchOneDigit s i

/-- `re.search` for the Camelot pattern: the leftmost position with a
match wins. -/
def reSearchKey (s : PStr) : Option (Nat × Char) :=
  (List.range (s.length + 1)).findSome? (fun i => matchKeyAt s i)

/-- `_normalize_camelot_key` (main_window.py:612-617): coerce to text,
search for the Camelot pattern, and format the match as
`f"{int(group1)}{group2.upper()}"`. -/
def normalizeCamelotKey (value : Val) : Option PStr :=
  let text := (coerceText value).getD []
  (reSearchKey text).map (fun p => intStr (p.1 : Int) ++ [p.2.toUpper])

/-- `KeyWheelWidget._parse_key` (widgets.py:202-215): strip and
uppercase, require a final `A`/`B`, require the rest to be digits, and
require the number to lie in `[1, 12]`. -/
def parseKey (key : PStr) : Option (Nat × Char) :=
  let k := (pyStrip key).map Char.toUpper
  if k.isEmpty then none
  else
    match k.getLast? with
    | none => none
    | some last =>
      if !(last == 'A' || last == 'B') then none
      else
        let numberStr := k.dropLast
        if numberStr.isEmpty || !numberStr.all Char.isDigit then none
        else
          let number := numberStr.foldl (fun a c => a * 10 + digitVal c) 0
          if number < 1 || number > 12 then none
          else some (number, last)

/-! ## Waveform builder (`_build_waveform`, main_window.py:995-1041) -/

/-- Worker for the windowing loop; the fuel argument (instantiated with
the list length, which bounds the number of windows) only serves
structural termination. -/
def chunkAux {α : Type} (hpred : Nat) : Nat → List α → List (List α)
  | 0, _ => []
  | _, [] => []
  | fuel + 1, x :: xs =>
    ((x :: xs).take (hpred + 1)) :: chunkAux hpred fuel ((x :: xs).drop (hpred + 1))

/-- The windows `mono[start : start + hop]` for
`start in range(0, total, hop)`, with `hop = hpred + 1` (the code always
passes `hop = max(1, ...) ≥ 1`). -/
def chunkList {α : Type} (hpred : Nat) (l : List α) : List (List α) :=
  chunkAux hpred l.length l

/-- Python `max(samples) if samples else default`. -/
def pyMaxQ (l : List ℚ) (dflt : ℚ) : ℚ :=
  match l with
  | [] => dflt
  | x :: xs => xs.foldl max x

/-- The per-window RMS sequence of `_build_waveform`
(main_window.py:1018-1036), starting from the mono signal (the averaging
of channels is external numpy code; the claims quantify over the mono
frames).  The per-window `float(np.sqrt(np.mean(chunk ** 2)))` is the
parameter `rms` — machine floats and `sqrt` are not rational — and the
`chunk.size == 0` guard is kept even though the windows are never
empty. -/
def rmsSamples (rms : List ℚ → ℚ) (mono : List ℚ) (targetBars : Nat) : List ℚ :=
  let total := mono.length
  let hop := max 1 (total / targetBars)
  (chunkList (hop - 1) mono).filterMap
    (fun chunk => if chunk.isEmpty then none else some (rms chunk))

/-- `_build_waveform` (main_window.py:995-1041) with no progress dialog
(`progress=None`, so no cancellation): empty input gives an empty
envelope; otherwise the RMS sequence is normalized by its maximum unless
that maximum is zero. -/
def buildWaveform (rms : List ℚ → ℚ) (mono : List ℚ) (targetBars : Nat) : List ℚ :=
  if mono.length = 0 then []
  else
    let samples := rmsSamples rms mono targetBars
    let maxValue := pyMaxQ samples 1
    if maxValue = 0 then samples else samples.map (fun v => v / maxValue)

/-! ## Cache persistence (`_save_cache`, main_window.py:1480-1490) -/

/-- The state `_save_cache` touches: the in-memory cache, the dirty flag,
and the durable file (modelled by the logical cache it holds, `none`
when absent). -/
structure CacheApp where
  tags_cache : Cache
  cache_dirty : Bool
  disk : Option Cache

/-- `_save_cache` (main_window.py:1480-1490): a clean cache is a no-op;
otherwise write the whole cache (`writeOk = false` models an `OSError`
from `write_text`, which is swallowed and leaves the dirty flag set;
only a successful write clears it). -/
def saveCache (writeOk : Bool) (st : CacheApp) : CacheApp :=
  if !st.cache_dirty then st
  else if writeOk then
    { st with disk := some st.tags_cache, cache_dirty := false }
  else st

/-! ## Helper lemmas -/

theorem dictGet_dictSet_self {β : Type} (d : List (PStr × β)) (k : PStr) (v : β) :
    dictGet (dictSet d k v) k = some v := by
  induction d with
  | nil => simp [dictGet, dictSet]
  | cons hd tl ih =>
    obtain ⟨k1, v1⟩ := hd
    by_cases h : k1 = k
    · simp [dictGet, dictSet, h]
    · simp [dictGet, dictSet, h, ih]

theorem dictGet_dictSet_ne {β : Type} (d : List (PStr × β)) (k k2 : PStr) (v : β)
    (h : k2 ≠ k) : dictGet (dictSet d k v) k2 = dictGet d k2 := by
  induction d with
  | nil =>
    simp only [dictSet, dictGet]
    rw [if_neg (Ne.symm h)]
  | cons hd tl ih =>
    obtain ⟨k1, v1⟩ := hd
    by_cases h1 : k1 = k
    · subst h1
      simp only [dictSet, if_pos rfl, dictGet]
      rw [if_neg (Ne.symm h), if_neg (Ne.symm h)]
    · simp only [dictSet, if_neg h1, dictGet]
      by_cases h2 : k1 = k2
      · rw [if_pos h2, if_pos h2]
      · rw [if_neg h2, if_neg h2]
        exact ih

theorem entGet_dictSet_self (d : List (PStr × Val)) (k : PStr) (v : Val) :
    entGet (dictSet d k v) k = v := by
  simp [entGet, dictGet_dictSet_self]

theorem entGet_dictSet_ne (d : List (PStr × Val)) (k k2 : PStr) (v : Val)
    (h : k2 ≠ k) : entGet (dictSet d k v) k2 = entGet d k2 := by
  simp [entGet, dictGet_dictSet_ne _ _ _ _ h]

theorem head?_rstripP (p : Char → Bool) (l : List Char) (h : rstripP p l ≠ []) :
    (rstripP p l).head? = l.head? := by
  cases l with
  | nil => simp [rstripP] at h
  | cons x xs =>
    cases hx : rstripP p xs with
    | nil =>
      by_cases hp : p x <;> simp [rstripP, hx, hp] at h ⊢
    | cons y ys => simp [rstripP, hx]

theorem rstripP_cons_of_ne (p : Char → Bool) (x y : Char) (l ys : List Char)
    (h : rstripP p l = y :: ys) : rstripP p (x :: l) = x :: y :: ys := by
  simp [rstripP, h]

theorem rstripP_idem (p : Char → Bool) (l : List Char) :
    rstripP p (rstripP p l) = rstripP p l := by
  induction l with
  | nil => simp [rstripP]
  | cons x xs ih =>
    cases hx : rstripP p xs with
    | nil =>
      by_cases hp : p x <;> simp [rstripP, hx, hp]
    | cons y ys =>
      rw [hx] at ih
      rw [rstripP_cons_of_ne p x y xs ys hx]
      exact rstripP_cons_of_ne p x y (y :: ys) ys ih

theorem head?_dropWhile_not (p : Char → Bool) (l : List Char) (c : Char)
    (h : (l.dropWhile p).head? = some c) : p c = false := by
  induction l with
  | nil => simp at h
  | cons x xs ih =>
    rw [List.dropWhile_cons] at h
    by_cases hp : p x
    · rw [if_pos hp] at h
      exact ih h
    · rw [if_neg hp] at h
      simp at h
      subst h
      simpa using hp

theorem dropWhile_eq_self_of_head (p : Char → Bool) (l : List Char)
    (h : ∀ c, l.head? = some c → p c = false) : l.dropWhile p = l := by
  cases l with
  | nil => simp
  | cons x xs => simp [List.dropWhile_cons, h x rfl]

theorem pyStrip_idem (s : PStr) : pyStrip (pyStrip s) = pyStrip s := by
  unfold pyStrip
  rw [dropWhile_eq_self_of_head, rstripP_idem]
  intro c hc
  by_cases hne : rstripP pyIsSpace (s.dropWhile pyIsSpace) = []
  · rw [hne] at hc
    simp at hc
  · rw [head?_rstripP _ _ hne] at hc
    exact head?_dropWhile_not _ _ _ hc

theorem orNone_pyStrip_ok (x : PStr) :
    orNone (pyStrip x) = none ∨
      ∃ s, orNone (pyStrip x) = some s ∧ s ≠ [] ∧ pyStrip s = s := by
  by_cases h : pyStrip x = []
  · left
    simp [orNone, h]
  · right
    exact ⟨pyStrip x, by simp [orNone, h], h, pyStrip_idem x⟩

theorem coerceScalar_ok (v : Val) :
    coerceScalar v = none ∨
      ∃ s, coerceScalar v = some s ∧ s ≠ [] ∧ pyStrip s = s := by
  cases v <;> simp only [coerceScalar] <;> exact orNone_pyStrip_ok _

/-- Claim C7: for every input value, `_coerce_text` never raises (it is a
total function here) and its result is either `None` or a non-empty
trimmed string — never the empty string; list/tuple inputs resolve to
their first element (an empty list/tuple yields `None`) and bytes are
decoded as UTF-8 with invalid sequences dropped. -/
theorem c7_coerce_text :
    (∀ v : Val, coerceText v = none ∨
      ∃ s, coerceText v = some s ∧ s ≠ [] ∧ pyStrip s = s)
    ∧ (∀ x xs, coerceText (.vlist (x :: xs)) = coerceScalar x)
    ∧ coerceText (.vlist []) = none
    ∧ (∀ b, coerceText (.vbytes b) = orNone (pyStrip (decodeUtf8Ignore b))) := by
  refine ⟨?_, fun x xs => rfl, rfl, fun b => rfl⟩
  intro v
  match v with
  | .vnone => left; rfl
  | .vlist [] => left; rfl
  | .vlist (x :: xs) => exact coerceScalar_ok x
  | .vbool b => exact coerceScalar_ok (.vbool b)
  | .vint n => exact coerceScalar_ok (.vint n)
  | .vrat q => exact coerceScalar_ok (.vrat q)
  | .vstr s => exact coerceScalar_ok (.vstr s)
  | .vbytes b => exact coerceScalar_ok (.vbytes b)
  | .vdict e => exact coerceScalar_ok (.vdict e)
  | .vframe d t => exact coerceScalar_ok (.vframe d t)
  | .vother => exact coerceScalar_ok .vother

/-- Claim C8: `_save_cache` writes only when the dirty flag is set and is
a no-op otherwise; a failed write leaves the state (and the dirty flag)
untouched so that a later flush retries, while a successful write stores
the full in-memory cache and clears the flag. -/
theorem c8_save_cache :
    ∀ (st : CacheApp) (ok : Bool),
      (st.cache_dirty = false → saveCache ok st = st)
      ∧ (st.cache_dirty = true → saveCache true st =
          { st with disk := some st.tags_cache, cache_dirty := false })
      ∧ (st.cache_dirty = true → saveCache false st = st)
      ∧ (st.cache_dirty = true →
          (saveCache true (saveCache false st)).disk = some st.tags_cache
          ∧ (saveCache true (saveCache false st)).cache_dirty = false) := by
  intro st ok
  refine ⟨fun h => ?_, fun h => ?_, fun h => ?_, fun h => ?_⟩
  · simp [saveCache, h]
  · simp [saveCache, h]
  · simp [saveCache, h]
  · simp [saveCache, h]

theorem b64dec_tbl : ∀ k < 64, b64dec (b64tbl k) = some k := by decide

theorem isB64_tbl : ∀ k < 64, isB64Char (b64tbl k) = true := by decide

theorem b64tbl_ne_pad : ∀ k < 64, ¬ b64tbl k = '=' := by decide

theorem isB64_pad : isB64Char '=' = true := by decide

theorem b64encode_filter (b : List Nat) (hb : ∀ x ∈ b, x < 256) :
    (b64encode b).filter isB64Char = b64encode b := by
  induction b using b64encode.induct with
  | case1 => rfl
  | case2 b1 =>
    have h1 : b1 < 256 := hb b1 (by simp)
    simp [b64encode, List.filter_cons, isB64_tbl _ (by omega : b1 / 4 < 64),
      isB64_tbl _ (by omega : b1 % 4 * 16 < 64), isB64_pad]
  | case3 b1 b2 =>
    have h1 : b1 < 256 := hb b1 (by simp)
    have h2 : b2 < 256 := hb b2 (by simp)
    simp [b64encode, List.filter_cons, isB64_tbl _ (by omega : b1 / 4 < 64),
      isB64_tbl _ (by omega : b1 % 4 * 16 + b2 / 16 < 64),
      isB64_tbl _ (by omega : b2 % 16 * 4 < 64), isB64_pad]
  | case4 b1 b2 b3 rest ih =>
    have h1 : b1 < 256 := hb b1 (by simp)
    have h2 : b2 < 256 := hb b2 (by simp)
    have h3 : b3 < 256 := hb b3 (by simp)
    have hrest : ∀ x ∈ rest, x < 256 := fun x hx => hb x (by simp [hx])
    simp [b64encode, List.filter_cons, isB64_tbl _ (by omega : b1 / 4 < 64),
      isB64_tbl _ (by omega : b1 % 4 * 16 + b2 / 16 < 64),
      isB64_tbl _ (by omega : b2 % 16 * 4 + b3 / 64 < 64),
      isB64_tbl _ (by omega : b3 % 64 < 64), ih hrest]

theorem b64decodeGroups_encode (b : List Nat) (hb : ∀ x ∈ b, x < 256) :
    b64decodeGroups (b64encode b) = some b := by
  induction b using b64encode.induct with
  | case1 => rfl
  | case2 b1 =>
    have h1 : b1 < 256 := hb b1 (by simp)
    rw [b64encode, b64decodeGroups]
    rw [if_pos ⟨rfl, rfl, rfl⟩]
    rw [b64dec_tbl _ (by omega : b1 / 4 < 64), b64dec_tbl _ (by omega : b1 % 4 * 16 < 64)]
    simp only [Option.bind_eq_bind, Option.some_bind, Option.pure_def, Option.some.injEq,
      List.cons.injEq, and_true]
    omega
  | case3 b1 b2 =>
    have h1 : b1 < 256 := hb b1 (by simp)
    have h2 : b2 < 256 := hb b2 (by simp)
    rw [b64encode, b64decodeGroups]
    rw [if_neg (fun hh => b64tbl_ne_pad _ (by omega : b2 % 16 * 4 < 64) hh.1)]
    rw [if_pos ⟨rfl, rfl⟩]
    rw [b64dec_tbl _ (by omega : b1 / 4 < 64),
      b64dec_tbl _ (by omega : b1 % 4 * 16 + b2 / 16 < 64),
      b64dec_tbl _ (by omega : b2 % 16 * 4 < 64)]
    simp only [Option.bind_eq_bind, Option.some_bind, Option.pure_def, Option.some.injEq,
      List.cons.injEq, and_true]
    constructor <;> omega
  | case4 b1 b2 b3 rest ih =>
    have h1 : b1 < 256 := hb b1 (by simp)
    have h2 : b2 < 256 := hb b2 (by simp)
    have h3 : b3 < 256 := hb b3 (by simp)
    have hrest : ∀ x ∈ rest, x < 256 := fun x hx => hb x (by simp [hx])
    rw [b64encode, b64decodeGroups]
    rw [if_neg (fun hh => b64tbl_ne_pad _ (by omega : b2 % 16 * 4 + b3 / 64 < 64) hh.1)]
    rw [if_neg (fun hh => b64tbl_ne_pad _ (by omega : b3 % 64 < 64) hh.1)]
    rw [b64dec_tbl _ (by omega : b1 / 4 < 64),
      b64dec_tbl _ (by omega : b1 % 4 * 16 + b2 / 16 < 64),
      b64dec_tbl _ (by omega : b2 % 16 * 4 + b3 / 64 < 64),
      b64dec_tbl _ (by omega : b3 % 64 < 64), ih hrest]
    simp only [Option.bind_eq_bind, Option.some_bind, Option.pure_def, Option.some.injEq,
      List.cons.injEq, and_true]
    refine ⟨by omega, by omega, by omega⟩

/-- Round trip through the cache's cover-art encoding: decoding the
stored base64 text recovers exactly the thumbnail bytes. -/
theorem b64decode_encode (b : List Nat) (hb : ∀ x ∈ b, x < 256) :
    b64decode (b64encode b) = some b := by
  rw [b64decode, b64encode_filter b hb, b64decodeGroups_encode b hb]

theorem tagEntryUpdate_get (e0 : List (PStr × Val)) (t : Int) (a ti l g bp cm cov : Val) :
    entGet (tagEntryUpdate e0 t a ti l g bp cm cov) kMtime = .vint t
    ∧ entGet (tagEntryUpdate e0 t a ti l g bp cm cov) kArtist = a
    ∧ entGet (tagEntryUpdate e0 t a ti l g bp cm cov) kTitle = ti
    ∧ entGet (tagEntryUpdate e0 t a ti l g bp cm cov) kLabel = l
    ∧ entGet (tagEntryUpdate e0 t a ti l g bp cm cov) kGenre = g
    ∧ entGet (tagEntryUpdate e0 t a ti l g bp cm cov) kBpm = bp
    ∧ entGet (tagEntryUpdate e0 t a ti l g bp cm cov) kComments = cm
    ∧ entGet (tagEntryUpdate e0 t a ti l g bp cm cov) kCover = cov
    ∧ entGet (tagEntryUpdate e0 t a ti l g bp cm cov) kWaveform = entGet e0 kWaveform := by
  unfold tagEntryUpdate
  refine ⟨?_, ?_, ?_, ?_, ?_, ?_, ?_, ?_, ?_⟩
  · rw [entGet_dictSet_ne _ _ _ _ (by decide), entGet_dictSet_ne _ _ _ _ (by decide),
      entGet_dictSet_ne _ _ _ _ (by decide), entGet_dictSet_ne _ _ _ _ (by decide),
      entGet_dictSet_ne _ _ _ _ (by decide), entGet_dictSet_ne _ _ _ _ (by decide),
      entGet_dictSet_ne _ _ _ _ (by decide), entGet_dictSet_self]
  · rw [entGet_dictSet_ne _ _ _ _ (by decide), entGet_dictSet_ne _ _ _ _ (by decide),
      entGet_dictSet_ne _ _ _ _ (by decide), entGet_dictSet_ne _ _ _ _ (by decide),
      entGet_dictSet_ne _ _ _ _ (by decide), entGet_dictSet_ne _ _ _ _ (by decide),
      entGet_dictSet_self]
  · rw [entGet_dictSet_ne _ _ _ _ (by decide), entGet_dictSet_ne _ _ _ _ (by decide),
      entGet_dictSet_ne _ _ _ _ (by decide), entGet_dictSet_ne _ _ _ _ (by decide),
      entGet_dictSet_ne _ _ _ _ (by decide), entGet_dictSet_self]
  · rw [entGet_dictSet_ne _ _ _ _ (by decide), entGet_dictSet_ne _ _ _ _ (by decide),
      entGet_dictSet_ne _ _ _ _ (by decide), entGet_dictSet_ne _ _ _ _ (by decide),
      entGet_dictSet_self]
  · rw [entGet_dictSet_ne _ _ _ _ (by decide), entGet_dictSet_ne _ _ _ _ (by decide),
      entGet_dictSet_ne _ _ _ _ (by decide), entGet_dictSet_self]
  · rw [entGet_dictSet_ne _ _ _ _ (by decide), entGet_dictSet_ne _ _ _ _ (by decide),
      entGet_dictSet_self]
  · rw [entGet_dictSet_ne _ _ _ _ (by decide), entGet_dictSet_self]
  · rw [entGet_dictSet_self]
  · rw [entGet_dictSet_ne _ _ _ _ (by decide), entGet_dictSet_ne _ _ _ _ (by decide),
      entGet_dictSet_ne _ _ _ _ (by decide), entGet_dictSet_ne _ _ _ _ (by decide),
      entGet_dictSet_ne _ _ _ _ (by decide), entGet_dictSet_ne _ _ _ _ (by decide),
      entGet_dictSet_ne _ _ _ _ (by decide), entGet_dictSet_ne _ _ _ _ (by decide)]

/-- The shape of a well-formed `str | None` metadata field: absent, or
non-empty trimmed text. -/
def TextOk (o : Option PStr) : Prop :=
  o = none ∨ ∃ s, o = some s ∧ pyStrip s = s ∧ s ≠ []

theorem coerceText_optVal (o : Option PStr) (h : TextOk o) :
    coerceText (optVal o) = o := by
  rcases h with h | ⟨s, ho, hs, hne⟩
  · subst h
    rfl
  · subst ho
    show coerceScalar (.vstr s) = some s
    simp only [coerceScalar, pyStr, hs, orNone, if_neg hne]

/-- Concrete instance of `c8_save_cache`: a failed flush of a dirty
cache changes nothing, and a retry then succeeds. -/
theorem c8_witness :
    (saveCache false { tags_cache := [], cache_dirty := true, disk := none } =
      { tags_cache := [], cache_dirty := true, disk := none })
    ∧ (saveCache true (saveCache false
        { tags_cache := [], cache_dirty := true, disk := none })).cache_dirty = false :=
  ⟨(c8_save_cache { tags_cache := [], cache_dirty := true, disk := none } false).2.2.1 rfl,
    ((c8_save_cache { tags_cache := [], cache_dirty := true, disk := none } false).2.2.2 rfl).2⟩

/-- Claim C2: storing a metadata record whose textual fields are `None`
or non-empty trimmed text with `_store_cached_tags`, then reading with
`_get_cached_tags` while the file's modification time is unchanged,
returns the record with its cover bytes replaced by the re-encoded
thumbnail of that cover (`None` when thumbnail encoding fails) and every
other field equal to the stored value. -/
theorem c2_roundtrip (thumbPng : List Nat → Option (List Nat)) (fs : FS)
    (cache : Cache) (dirty : Bool) (path : PStr) (m : Info) (t : Int)
    (hm : fs.mtimeNs path = some t)
    (ha : TextOk m.artist) (hti : TextOk m.title) (hl : TextOk m.label)
    (hg : TextOk m.genre) (hb : TextOk m.bpm) (hc : TextOk m.comments)
    (hthumb : ∀ b png, thumbPng b = some png → ∀ x ∈ png, x < 256) :
    getCachedTags fs (storeCachedTags thumbPng fs cache dirty path m).1 path =
      some { m with cover_data := m.cover_data.bind thumbPng } := by
  simp only [storeCachedTags, hm]
  simp only [getCachedTags, dictGet_dictSet_self, hm]
  obtain ⟨g1, g2, g3, g4, g5, g6, g7, g8, -⟩ :=
    tagEntryUpdate_get
      (match dictGet cache (fs.resolve path) with
       | some (.vdict e) => e
       | _ => [])
      t (optVal m.artist) (optVal m.title) (optVal m.label) (optVal m.genre)
      (optVal m.bpm) (optVal m.comments)
      (match m.cover_data with
       | some b =>
         match encodeCoverThumbnail thumbPng b with
         | some s => Val.vstr s
         | none => Val.vnone
       | none => Val.vnone)
  rw [g1, g2, g3, g4, g5, g6, g7, g8]
  simp only [pyEqInt, beq_self_eq_true, if_true]
  rw [coerceText_optVal _ ha, coerceText_optVal _ hti, coerceText_optVal _ hl,
    coerceText_optVal _ hg, coerceText_optVal _ hb, coerceText_optVal _ hc]
  rcases hcd : m.cover_data with - | b
  · simp
  · rcases hpng : thumbPng b with - | png
    · simp [encodeCoverThumbnail, hpng]
    · simp [encodeCoverThumbnail, hpng, b64decode_encode png (hthumb b png hpng)]

/-- Concrete instance of `c2_roundtrip`: a record with artist `"x"` and
a two-byte cover stored through an identity-like thumbnailer reads back
with the thumbnail as cover. -/
theorem c2_witness :
    getCachedTags
      { resolve := fun p => p, mtimeNs := fun _ => some 5 }
      (storeCachedTags (fun _ => some [1, 2, 3])
        { resolve := fun p => p, mtimeNs := fun _ => some 5 }
        [] false (("song.mp3").toList)
        { artist := some (("x").toList), title := none, label := none,
          genre := none, bpm := none, comments := none,
          cover_data := some [9, 10] }).1
      (("song.mp3").toList) =
      some { artist := some (("x").toList), title := none, label := none,
             genre := none, bpm := none, comments := none,
             cover_data := some [1, 2, 3] } :=
  c2_roundtrip (fun _ => some [1, 2, 3])
    { resolve := fun p => p, mtimeNs := fun _ => some 5 }
    [] false (("song.mp3").toList)
    { artist := some (("x").toList), title := none, label := none,
      genre := none, bpm := none, comments := none, cover_data := some [9, 10] }
    5 rfl
    (Or.inr ⟨("x").toList, rfl, by decide, by decide⟩)
    (Or.inl rfl) (Or.inl rfl) (Or.inl rfl) (Or.inl rfl) (Or.inl rfl)
    (fun b png h => by
      cases h
      intro x hx
      simp at hx
      omega)

/-! ## Cache-miss causes (claim C1) -/

/-- Miss cause 1: no (dict-shaped) entry is stored under the resolved
path. -/
def missNoEntry (cache : Cache) (key : PStr) : Prop :=
  ∀ e, dictGet cache key ≠ some (.vdict e)

/-- Miss cause 2: the file cannot be stat'ed. -/
def missStatFail (fs : FS) (path : PStr) : Prop :=
  fs.mtimeNs path = none

/-- Miss cause 3: the stored `mtime_ns` fingerprint differs from the
file's current modification time. -/
def missStale (fs : FS) (cache : Cache) (path : PStr) : Prop :=
  ∃ e t, dictGet cache (fs.resolve path) = some (.vdict e)
    ∧ fs.mtimeNs path = some t ∧ pyEqInt (entGet e kMtime) t = false

/-- The extra miss cause of `_get_cached_waveform`: the entry is valid
but its `waveform` value is missing or not a list. -/
def missWaveformShape (fs : FS) (cache : Cache) (path : PStr) : Prop :=
  ∃ e t, dictGet cache (fs.resolve path) = some (.vdict e)
    ∧ fs.mtimeNs path = some t ∧ pyEqInt (entGet e kMtime) t = true
    ∧ ∀ vs, entGet e kWaveform ≠ .vlist vs

/-- Claim C1, counterexample: `_get_cached_waveform` misses in a fourth
situation the claim does not allow — a stored dict entry with a matching
fingerprint but no list-shaped `waveform` value — so the miss-iff-three-
causes reading of the claim is false for the waveform reader. -/
theorem c1_counterexample :
    ¬ (getCachedWaveform
          { resolve := fun p => p, mtimeNs := fun _ => some 5 }
          [(("a").toList, .vdict [(kMtime, .vint 5)])] (("a").toList) = none ↔
        (missNoEntry [(("a").toList, .vdict [(kMtime, .vint 5)])] (("a").toList)
          ∨ missStatFail { resolve := fun p => p, mtimeNs := fun _ => some 5 } (("a").toList)
          ∨ missStale { resolve := fun p => p, mtimeNs := fun _ => some 5 }
              [(("a").toList, .vdict [(kMtime, .vint 5)])] (("a").toList))) := by
  intro h
  rcases h.mp rfl with hA | hB | hC
  · exact hA [(kMtime, .vint 5)] rfl
  · exact Option.noConfusion hB
  · obtain ⟨e, t, he, ht, hne⟩ := hC
    injection he with h1
    injection h1 with h2
    injection ht with h3
    subst h2
    subst h3
    exact absurd hne (by decide)

/-- Claim C1, amended: `_get_cached_tags` misses exactly in the three
claimed situations (no dict entry stored under the resolved path, stat
failure, or a fingerprint mismatch), and the miss carries no cause
information; `_get_cached_waveform` misses in those three situations and
additionally when the valid entry's `waveform` value is not a list.
After metadata is stored, changing the file's modification time makes
both reads miss. -/
theorem c1_cache_miss_amended :
    (∀ (fs : FS) (cache : Cache) (path : PStr),
      getCachedTags fs cache path = none ↔
        (missNoEntry cache (fs.resolve path) ∨ missStatFail fs path
          ∨ missStale fs cache path))
    ∧ (∀ (fs : FS) (cache : Cache) (path : PStr),
      getCachedWaveform fs cache path = none ↔
        (missNoEntry cache (fs.resolve path) ∨ missStatFail fs path
          ∨ missStale fs cache path ∨ missWaveformShape fs cache path))
    ∧ (∀ (thumbPng : List Nat → Option (List Nat)) (fs fs2 : FS) (cache : Cache)
        (dirty : Bool) (path : PStr) (m : Info) (t t2 : Int),
      fs.mtimeNs path = some t → fs2.mtimeNs path = some t2 → t2 ≠ t →
      fs2.resolve path = fs.resolve path →
      getCachedTags fs2 (storeCachedTags thumbPng fs cache dirty path m).1 path = none
      ∧ getCachedWaveform fs2 (storeCachedTags thumbPng fs cache dirty path m).1 path
          = none) := by
  refine ⟨?_, ?_, ?_⟩
  · intro fs cache path
    constructor
    · intro hnone
      rcases hE : dictGet cache (fs.resolve path) with - | v
      · exact Or.inl (fun e h => by rw [hE] at h; exact Option.noConfusion h)
      · cases v with
        | vdict e =>
          rcases hT : fs.mtimeNs path with - | t
          · exact Or.inr (Or.inl hT)
          · refine Or.inr (Or.inr ⟨e, t, hE, hT, ?_⟩)
            by_contra hne
            simp only [Bool.not_eq_false] at hne
            simp [getCachedTags, hE, hT, hne] at hnone
        | vnone => exact Or.inl (fun e h => by rw [hE] at h; simp at h)
        | vbool b => exact Or.inl (fun e h => by rw [hE] at h; simp at h)
        | vint n => exact Or.inl (fun e h => by rw [hE] at h; simp at h)
        | vrat q => exact Or.inl (fun e h => by rw [hE] at h; simp at h)
        | vstr s => exact Or.inl (fun e h => by rw [hE] at h; simp at h)
        | vbytes b => exact Or.inl (fun e h => by rw [hE] at h; simp at h)
        | vlist vs => exact Or.inl (fun e h => by rw [hE] at h; simp at h)
        | vframe d tx => exact Or.inl (fun e h => by rw [hE] at h; simp at h)
        | vother => exact Or.inl (fun e h => by rw [hE] at h; simp at h)
    · intro hcause
      rcases hcause with hA | hB | hC
      · rcases hE : dictGet cache (fs.resolve path) with - | v
        · simp [getCachedTags, hE]
        · have hv : ∀ e, v ≠ .vdict e := fun e h => hA e (by rw [hE, h])
          cases v <;> simp [getCachedTags, hE]
          exact absurd rfl (hv _)
      · have hB2 : fs.mtimeNs path = none := hB
        rcases hE : dictGet cache (fs.resolve path) with - | v
        · simp [getCachedTags, hE]
        · cases v <;> simp [getCachedTags, hE, hB2]
      · obtain ⟨e, t, hE, hT, hne⟩ := hC
        simp [getCachedTags, hE, hT, hne]
  · intro fs cache path
    constructor
    · intro hnone
      rcases hE : dictGet cache (fs.resolve path) with - | v
      · exact Or.inl (fun e h => by rw [hE] at h; exact Option.noConfusion h)
      · cases v with
        | vdict e =>
          rcases hT : fs.mtimeNs path with - | t
          · exact Or.inr (Or.inl hT)
          · rcases hq : pyEqInt (entGet e kMtime) t with - | -
            · exact Or.inr (Or.inr (Or.inl ⟨e, t, hE, hT, hq⟩))
            · refine Or.inr (Or.inr (Or.inr ⟨e, t, hE, hT, hq, ?_⟩))
              intro vs hW
              simp [getCachedWaveform, hE, hT, hq, hW] at hnone
        | vnone => exact Or.inl (fun e h => by rw [hE] at h; simp at h)
        | vbool b => exact Or.inl (fun e h => by rw [hE] at h; simp at h)
        | vint n => exact Or.inl (fun e h => by rw [hE] at h; simp at h)
        | vrat q => exact Or.inl (fun e h => by rw [hE] at h; simp at h)
        | vstr s => exact Or.inl (fun e h => by rw [hE] at h; simp at h)
        | vbytes b => exact Or.inl (fun e h => by rw [hE] at h; simp at h)
        | vlist vs => exact Or.inl (fun e h => by rw [hE] at h; simp at h)
        | vframe d tx => exact Or.inl (fun e h => by rw [hE] at h; simp at h)
        | vother => exact Or.inl (fun e h => by rw [hE] at h; simp at h)
    · intro hcause
      rcases hcause with hA | hB | hC | hD
      · rcases hE : dictGet cache (fs.resolve path) with - | v
        · simp [getCachedWaveform, hE]
        · have hv : ∀ e, v ≠ .vdict e := fun e h => hA e (by rw [hE, h])
          cases v <;> simp [getCachedWaveform, hE]
          exact absurd rfl (hv _)
      · have hB2 : fs.mtimeNs path = none := hB
        rcases hE : dictGet cache (fs.resolve path) with - | v
        · simp [getCachedWaveform, hE]
        · cases v <;> simp [getCachedWaveform, hE, hB2]
      · obtain ⟨e, t, hE, hT, hne⟩ := hC
        simp [getCachedWaveform, hE, hT, hne]
      · obtain ⟨e, t, hE, hT, hq, hW⟩ := hD
        cases hw : entGet e kWaveform <;>
          simp [getCachedWaveform, hE, hT, hq, hw]
        exact absurd rfl (hw ▸ hW _)
  · intro thumbPng fs fs2 cache dirty path m t t2 ht ht2 hne hres
    have hfp :=
      (tagEntryUpdate_get
        (match dictGet cache (fs.resolve path) with
         | some (.vdict e) => e
         | _ => [])
        t (optVal m.artist) (optVal m.title) (optVal m.label) (optVal m.genre)
        (optVal m.bpm) (optVal m.comments)
        (match m.cover_data with
         | some b =>
           match encodeCoverThumbnail thumbPng b with
           | some s => Val.vstr s
           | none => Val.vnone
         | none => Val.vnone)).1
    have hbe : pyEqInt (Val.vint t) t2 = false := by
      simp only [pyEqInt]
      exact beq_eq_false_iff_ne.mpr (fun hh => hne (hh.symm))
    constructor
    · simp only [storeCachedTags, ht]
      simp only [getCachedTags, hres, dictGet_dictSet_self, ht2, hfp, hbe]
      simp
    · simp only [storeCachedTags, ht]
      simp only [getCachedWaveform, hres, dictGet_dictSet_self, ht2, hfp, hbe]
      simp

/-- Concrete instance of `c1_cache_miss_amended`: storing metadata at
modification time 5 and reading after the time changed to 6 misses for
both readers. -/
theorem c1_witness :
    getCachedTags { resolve := fun p => p, mtimeNs := fun _ => some 6 }
      (storeCachedTags (fun _ => none)
        { resolve := fun p => p, mtimeNs := fun _ => some 5 } [] false
        (("a").toList)
        { artist := none, title := none, label := none, genre := none,
          bpm := none, comments := none, cover_data := none }).1
      (("a").toList) = none :=
  (c1_cache_miss_amended.2.2 (fun _ => none)
    { resolve := fun p => p, mtimeNs := fun _ => some 5 }
    { resolve := fun p => p, mtimeNs := fun _ => some 6 }
    [] false (("a").toList)
    { artist := none, title := none, label := none, genre := none,
      bpm := none, comments := none, cover_data := none }
    5 6 rfl rfl (by decide) rfl).1

/-- Claim C9: `_store_cached_waveform` touches only the `mtime_ns` and
`waveform` fields of the entry for the resolved path — every other
stored field (artist, title, label, genre, bpm, comments, cover_data, or
anything else) is unchanged — and it overwrites the shared fingerprint
with the file's current modification time regardless of the fingerprint
the metadata was stored under; other cache keys are untouched and the
dirty flag is set. -/
theorem c9_waveform_frame (fs : FS) (cache : Cache) (dirty : Bool) (path : PStr)
    (samples : List ℚ) (t : Int) (e0 : List (PStr × Val))
    (ht : fs.mtimeNs path = some t)
    (hE : dictGet cache (fs.resolve path) = some (.vdict e0)) :
    dictGet (storeCachedWaveform fs cache dirty path samples).1 (fs.resolve path) =
      some (.vdict (wfEntryUpdate e0 t samples))
    ∧ (∀ k, k ≠ kMtime → k ≠ kWaveform →
        entGet (wfEntryUpdate e0 t samples) k = entGet e0 k)
    ∧ entGet (wfEntryUpdate e0 t samples) kMtime = .vint t
    ∧ entGet (wfEntryUpdate e0 t samples) kWaveform = .vlist (samples.map .vrat)
    ∧ (∀ k2, k2 ≠ fs.resolve path →
        dictGet (storeCachedWaveform fs cache dirty path samples).1 k2 =
          dictGet cache k2)
    ∧ (storeCachedWaveform fs cache dirty path samples).2 = true := by
  refine ⟨?_, ?_, ?_, ?_, ?_, ?_⟩
  · simp only [storeCachedWaveform, ht, hE, dictGet_dictSet_self]
  · intro k hk1 hk2
    unfold wfEntryUpdate
    rw [entGet_dictSet_ne _ _ _ _ hk2, entGet_dictSet_ne _ _ _ _ hk1]
  · unfold wfEntryUpdate
    rw [entGet_dictSet_ne _ _ _ _ (by decide), entGet_dictSet_self]
  · unfold wfEntryUpdate
    rw [entGet_dictSet_self]
  · intro k2 hk2
    simp only [storeCachedWaveform, ht, hE]
    rw [dictGet_dictSet_ne _ _ _ _ hk2]
  · simp only [storeCachedWaveform, ht, hE]

/-- Concrete instance of `c9_waveform_frame`: storing a waveform over an
entry holding artist metadata and an old fingerprint replaces only the
fingerprint and waveform. -/
theorem c9_witness :
    dictGet (storeCachedWaveform
      { resolve := fun p => p, mtimeNs := fun _ => some 7 }
      [(("a").toList, .vdict [(kMtime, .vint 3), (kArtist, .vstr (("x").toList))])]
      false (("a").toList) [1]).1 (("a").toList) =
      some (.vdict [(kMtime, .vint 7), (kArtist, .vstr (("x").toList)),
        (kWaveform, .vlist [.vrat 1])]) :=
  (c9_waveform_frame
    { resolve := fun p => p, mtimeNs := fun _ => some 7 }
    [(("a").toList, .vdict [(kMtime, .vint 3), (kArtist, .vstr (("x").toList))])]
    false (("a").toList) [1] 7
    [(kMtime, .vint 3), (kArtist, .vstr (("x").toList))] rfl rfl).1

/-- Claim C10: when a cache entry is fingerprint-valid, a list-shaped
`waveform` value is returned with unconvertible elements silently
dropped in order (possibly yielding an empty list), while a non-list
`waveform` value yields a miss. -/
theorem c10_waveform_lenient (fs : FS) (cache : Cache) (path : PStr)
    (e : List (PStr × Val)) (t : Int)
    (hE : dictGet cache (fs.resolve path) = some (.vdict e))
    (hT : fs.mtimeNs path = some t)
    (hq : pyEqInt (entGet e kMtime) t = true) :
    (∀ vs, entGet e kWaveform = .vlist vs →
      getCachedWaveform fs cache path = some (vs.filterMap pyFloat))
    ∧ ((∀ vs, entGet e kWaveform ≠ .vlist vs) →
      getCachedWaveform fs cache path = none) := by
  constructor
  · intro vs hW
    simp [getCachedWaveform, hE, hT, hq, hW]
  · intro hW
    cases hw : entGet e kWaveform <;> simp [getCachedWaveform, hE, hT, hq, hw]
    exact absurd rfl (hw ▸ hW _)

/-- Concrete instance of `c10_waveform_lenient`: a waveform list holding
a float, `None`, the string `"2.5"` and the int `3` reads back as the
floats `[1/2, 5/2, 3]` — the `None` is dropped, not a miss. -/
theorem c10_witness :
    getCachedWaveform { resolve := fun p => p, mtimeNs := fun _ => some 5 }
      [(("a").toList, .vdict [(kMtime, .vint 5),
        (kWaveform, .vlist [.vrat (1 / 2), .vnone, .vstr (("2.5").toList), .vint 3])])]
      (("a").toList) =
      some ([Val.vrat (1 / 2), Val.vnone, Val.vstr (("2.5").toList),
        Val.vint 3].filterMap pyFloat) :=
  (c10_waveform_lenient
    { resolve := fun p => p, mtimeNs := fun _ => some 5 }
    [(("a").toList, .vdict [(kMtime, .vint 5),
      (kWaveform, .vlist [.vrat (1 / 2), .vnone, .vstr (("2.5").toList), .vint 3])])]
    (("a").toList)
    [(kMtime, .vint 5),
      (kWaveform, .vlist [.vrat (1 / 2), .vnone, .vstr (("2.5").toList), .vint 3])]
    5 rfl rfl (by decide)).1
    [.vrat (1 / 2), .vnone, .vstr (("2.5").toList), .vint 3] rfl

/-! ## Waveform-builder lemmas -/

theorem chunkAux_fuel {α : Type} (h : Nat) :
    ∀ (f1 f2 : Nat) (l : List α), l.length ≤ f1 → l.length ≤ f2 →
      chunkAux h f1 l = chunkAux h f2 l := by
  intro f1
  induction f1 with
  | zero =>
    intro f2 l h1 h2
    have hl : l = [] := by
      cases l with
      | nil => rfl
      | cons x xs => simp at h1
    subst hl
    cases f2 <;> rfl
  | succ f ih =>
    intro f2 l h1 h2
    cases l with
    | nil => cases f2 <;> rfl
    | cons x xs =>
      cases f2 with
      | zero => simp at h2
      | succ f3 =>
        rw [chunkAux, chunkAux]
        congr 1
        exact ih f3 _ (by simp at h1 ⊢; omega) (by simp at h2 ⊢; omega)

/-- The unfolding of `chunkList` on a non-empty list. -/
theorem chunkList_cons {α : Type} (h : Nat) (x : α) (xs : List α) :
    chunkList h (x :: xs) =
      ((x :: xs).take (h + 1)) :: chunkList h ((x :: xs).drop (h + 1)) := by
  show chunkAux h (xs.length + 1) (x :: xs) = _
  rw [chunkAux]
  congr 1
  exact chunkAux_fuel h xs.length _ _
    (by simp only [List.length_drop, List.length_cons]; omega) (le_refl _)

theorem chunkList_flatten {α : Type} (h : Nat) (l : List α) :
    (chunkList h l).flatten = l := by
  suffices haux : ∀ (fuel : Nat) (l : List α), l.length ≤ fuel →
      (chunkAux h fuel l).flatten = l from haux l.length l (le_refl _)
  intro fuel
  induction fuel with
  | zero =>
    intro l hl
    cases l with
    | nil => rfl
    | cons x xs => simp at hl
  | succ f ih =>
    intro l hl
    cases l with
    | nil => rfl
    | cons x xs =>
      rw [chunkAux, List.flatten_cons, ih _ (by simp at hl ⊢; omega),
        List.take_append_drop]

theorem chunkList_ne_nil {α : Type} (h : Nat) (l : List α) :
    ∀ c ∈ chunkList h l, c ≠ [] := by
  suffices haux : ∀ (fuel : Nat) (l : List α), l.length ≤ fuel →
      ∀ c ∈ chunkAux h fuel l, c ≠ [] from haux l.length l (le_refl _)
  intro fuel
  induction fuel with
  | zero => intro l hl c hc; cases l <;> simp [chunkAux] at hc
  | succ f ih =>
    intro l hl c hc
    cases l with
    | nil => simp [chunkAux] at hc
    | cons x xs =>
      rw [chunkAux] at hc
      rcases List.mem_cons.mp hc with hc | hc
      · subst hc
        simp
      · exact ih _ (by simp at hl ⊢; omega) c hc

theorem chunkList_le {α : Type} (h : Nat) (l : List α) :
    ∀ c ∈ chunkList h l, c.length ≤ h + 1 := by
  suffices haux : ∀ (fuel : Nat) (l : List α), l.length ≤ fuel →
      ∀ c ∈ chunkAux h fuel l, c.length ≤ h + 1 from haux l.length l (le_refl _)
  intro fuel
  induction fuel with
  | zero => intro l hl c hc; cases l <;> simp [chunkAux] at hc
  | succ f ih =>
    intro l hl c hc
    cases l with
    | nil => simp [chunkAux] at hc
    | cons x xs =>
      rw [chunkAux] at hc
      rcases List.mem_cons.mp hc with hc | hc
      · subst hc
        simp
      · exact ih _ (by simp at hl ⊢; omega) c hc

theorem chunkList_eq_nil_iff {α : Type} (h : Nat) (l : List α) :
    chunkList h l = [] ↔ l = [] := by
  cases l with
  | nil => simp [chunkList, chunkAux]
  | cons x xs =>
    rw [chunkList_cons]
    simp

theorem chunkList_dropLast {α : Type} (h : Nat) (l : List α) :
    ∀ c ∈ (chunkList h l).dropLast, c.length = h + 1 := by
  suffices haux : ∀ (fuel : Nat) (l : List α), l.length = fuel →
      ∀ c ∈ (chunkList h l).dropLast, c.length = h + 1 from haux l.length l rfl
  intro fuel
  induction fuel using Nat.strong_induction_on with
  | _ fuel ih =>
    intro l hl c hc
    cases l with
    | nil => simp [chunkList, chunkAux] at hc
    | cons x xs =>
      rw [chunkList_cons] at hc
      by_cases hrest : chunkList h ((x :: xs).drop (h + 1)) = []
      · rw [hrest] at hc
        simp at hc
      · rw [List.dropLast_cons_of_ne_nil hrest] at hc
        rcases List.mem_cons.mp hc with hc | hc
        · subst hc
          have hlen : h + 1 ≤ (x :: xs).length := by
            by_contra hlt
            exact hrest ((chunkList_eq_nil_iff h _).mpr
              (List.drop_eq_nil_of_le (by omega)))
          simp only [List.length_take, List.length_cons] at *
          omega
        · subst hl
          exact ih ((x :: xs).drop (h + 1)).length (by simp; omega) _ rfl c hc

theorem chunkList_length {α : Type} (h : Nat) (l : List α) :
    (chunkList h l).length = (l.length + h) / (h + 1) := by
  suffices haux : ∀ (fuel : Nat) (l : List α), l.length ≤ fuel →
      (chunkAux h fuel l).length = (l.length + h) / (h + 1) from
    haux l.length l (le_refl _)
  intro fuel
  induction fuel with
  | zero =>
    intro l hl
    cases l with
    | nil => simp [chunkAux, Nat.div_eq_of_lt (by omega : h < h + 1)]
    | cons x xs => simp at hl
  | succ f ih =>
    intro l hl
    cases l with
    | nil => simp [chunkAux, Nat.div_eq_of_lt (by omega : h < h + 1)]
    | cons x xs =>
      rw [chunkAux]
      rw [List.length_cons,
        ih ((x :: xs).drop (h + 1))
          (by simp only [List.length_drop, List.length_cons] at hl ⊢; omega)]
      simp only [List.length_drop, List.length_cons]
      by_cases hle : xs.length + 1 ≤ h + 1
      · have h0 : xs.length + 1 - (h + 1) = 0 := by omega
        rw [h0]
        have hb1 : (0 + h) / (h + 1) = 0 := Nat.div_eq_of_lt (by omega)
        have hb2 : (xs.length + 1 + h) / (h + 1) = 1 :=
          Nat.div_eq_of_lt_le (by omega) (by omega)
        rw [hb1, hb2]
      · push_neg at hle
        have hsub : xs.length + 1 - (h + 1) + h + (h + 1) = xs.length + 1 + h := by
          omega
        have hdiv := Nat.add_div_right (xs.length + 1 - (h + 1) + h)
          (by omega : 0 < h + 1)
        rw [hsub] at hdiv
        omega

theorem filterMap_if_ne_nil (rms : List ℚ → ℚ) (cs : List (List ℚ))
    (hcs : ∀ c ∈ cs, c ≠ []) :
    cs.filterMap (fun c => if c.isEmpty then none else some (rms c)) = cs.map rms := by
  induction cs with
  | nil => rfl
  | cons c cs ih =>
    have hc : c.isEmpty = false := by
      simp [List.isEmpty_iff]
      exact hcs c (by simp)
    rw [List.filterMap_cons, List.map_cons]
    simp only [hc, Bool.false_eq_true, if_false]
    rw [ih (fun d hd => hcs d (by simp [hd]))]

theorem rmsSamples_eq_map (rms : List ℚ → ℚ) (mono : List ℚ) (n : Nat) :
    rmsSamples rms mono n =
      (chunkList (max 1 (mono.length / n) - 1) mono).map rms := by
  unfold rmsSamples
  exact filterMap_if_ne_nil rms _ (chunkList_ne_nil _ mono)

theorem foldl_max_mem (xs : List ℚ) (a : ℚ) :
    xs.foldl max a = a ∨ xs.foldl max a ∈ xs := by
  induction xs generalizing a with
  | nil => left; rfl
  | cons x xs ih =>
    rcases ih (max a x) with h | h
    · rcases max_choice a x with hm | hm
      · left
        rw [List.foldl_cons, h, hm]
      · right
        rw [List.foldl_cons, h, hm]
        simp
    · right
      rw [List.foldl_cons]
      exact List.mem_cons_of_mem x h

theorem le_foldl_max_init (xs : List ℚ) (a : ℚ) : a ≤ xs.foldl max a := by
  induction xs generalizing a with
  | nil => exact le_refl a
  | cons x xs ih =>
    rw [List.foldl_cons]
    exact le_trans (le_max_left a x) (ih (max a x))

theorem le_foldl_max (xs : List ℚ) (a v : ℚ) (hv : v ∈ xs) : v ≤ xs.foldl max a := by
  induction xs generalizing a with
  | nil => simp at hv
  | cons x xs ih =>
    rw [List.foldl_cons]
    rcases List.mem_cons.mp hv with hv | hv
    · subst hv
      exact le_trans (le_max_right a v) (le_foldl_max_init xs (max a v))
    · exact ih (max a x) hv

theorem pyMaxQ_mem (l : List ℚ) (d : ℚ) (h : l ≠ []) : pyMaxQ l d ∈ l := by
  cases l with
  | nil => exact absurd rfl h
  | cons x xs =>
    rcases foldl_max_mem xs x with h1 | h1
    · rw [pyMaxQ, h1]
      simp
    · rw [pyMaxQ]
      exact List.mem_cons_of_mem x h1

theorem le_pyMaxQ (l : List ℚ) (d v : ℚ) (hv : v ∈ l) : v ≤ pyMaxQ l d := by
  cases l with
  | nil => simp at hv
  | cons x xs =>
    rw [pyMaxQ]
    rcases List.mem_cons.mp hv with hv | hv
    · subst hv
      exact le_foldl_max_init xs v
    · exact le_foldl_max xs x v hv

theorem rmsSamples_nonneg (rms : List ℚ → ℚ) (mono : List ℚ) (n : Nat)
    (hrms : ∀ c, 0 ≤ rms c) : ∀ v ∈ rmsSamples rms mono n, 0 ≤ v := by
  intro v hv
  rw [rmsSamples_eq_map] at hv
  obtain ⟨c, -, rfl⟩ := List.mem_map.mp hv
  exact hrms c

/-- Claim C3: the builder divides every RMS value by the maximum of the
sequence, so whenever some window is non-silent the returned envelope
has maximum exactly 1; when the maximum is exactly zero the unnormalized
(all-zero) sequence is returned unchanged.  The per-window RMS function
is a parameter (machine floats and `sqrt` are not rational) constrained
only by the nonnegativity every real RMS satisfies. -/
theorem c3_normalization (rms : List ℚ → ℚ) (mono : List ℚ) (n : Nat)
    (hrms : ∀ c, 0 ≤ rms c) :
    ((∃ v ∈ rmsSamples rms mono n, v ≠ 0) →
      buildWaveform rms mono n =
        (rmsSamples rms mono n).map
          (fun v => v / pyMaxQ (rmsSamples rms mono n) 1)
      ∧ pyMaxQ (buildWaveform rms mono n) 1 = 1)
    ∧ (pyMaxQ (rmsSamples rms mono n) 1 = 0 →
      buildWaveform rms mono n = rmsSamples rms mono n
      ∧ ∀ v ∈ rmsSamples rms mono n, v = 0) := by
  have hmono0 : ∀ hm : mono = [], rmsSamples rms mono n = [] := by
    intro hm
    subst hm
    rfl
  constructor
  · rintro ⟨v, hv, hvne⟩
    have hsne : rmsSamples rms mono n ≠ [] := fun hh => by simp [hh] at hv
    have hmne : mono ≠ [] := fun hh => hsne (hmono0 hh)
    have hvpos : 0 < v := lt_of_le_of_ne (rmsSamples_nonneg rms mono n hrms v hv)
      (Ne.symm hvne)
    have hmaxpos : 0 < pyMaxQ (rmsSamples rms mono n) 1 :=
      lt_of_lt_of_le hvpos (le_pyMaxQ _ 1 v hv)
    have hmaxne : pyMaxQ (rmsSamples rms mono n) 1 ≠ 0 := ne_of_gt hmaxpos
    have hbuild : buildWaveform rms mono n =
        (rmsSamples rms mono n).map
          (fun w => w / pyMaxQ (rmsSamples rms mono n) 1) := by
      unfold buildWaveform
      rw [if_neg (by simpa using hmne), if_neg hmaxne]
    refine ⟨hbuild, ?_⟩
    rw [hbuild]
    set mx := pyMaxQ (rmsSamples rms mono n) 1 with hmx
    have hone : (1 : ℚ) ∈ (rmsSamples rms mono n).map (fun w => w / mx) := by
      rw [List.mem_map]
      exact ⟨mx, pyMaxQ_mem _ 1 hsne, div_self hmaxne⟩
    have hub : ∀ w ∈ (rmsSamples rms mono n).map (fun w => w / mx), w ≤ 1 := by
      intro w hw
      obtain ⟨u, hu, rfl⟩ := List.mem_map.mp hw
      exact (div_le_one hmaxpos).mpr (le_pyMaxQ _ 1 u hu)
    have hne2 : (rmsSamples rms mono n).map (fun w => w / mx) ≠ [] := by
      simpa using hsne
    exact le_antisymm (hub _ (pyMaxQ_mem _ 1 hne2)) (le_pyMaxQ _ 1 1 hone)
  · intro hmax
    have hsne : rmsSamples rms mono n ≠ [] := by
      intro hh
      rw [hh] at hmax
      simp [pyMaxQ] at hmax
    have hmne : mono ≠ [] := fun hh => hsne (hmono0 hh)
    refine ⟨?_, ?_⟩
    · unfold buildWaveform
      rw [if_neg (by simpa using hmne), if_pos hmax]
    · intro v hv
      exact le_antisymm (hmax ▸ le_pyMaxQ _ 1 v hv)
        (rmsSamples_nonneg rms mono n hrms v hv)

/-- Concrete instance of `c3_normalization`: a constant non-zero RMS
normalizes to an all-ones envelope, and an all-zero RMS sequence comes
back unchanged. -/
theorem c3_witness :
    pyMaxQ (buildWaveform (fun _ => 2) [0, 0] 1) 1 = 1
    ∧ buildWaveform (fun _ => 0) [0] 1 = rmsSamples (fun _ => 0) [0] 1 :=
  ⟨((c3_normalization (fun _ => 2) [0, 0] 1 (fun _ => by norm_num)).1
      ⟨2, by decide, by decide⟩).2,
    ((c3_normalization (fun _ => 0) [0] 1 (fun _ => le_refl 0)).2 (by decide)).1⟩

/-- Claim C4, counterexample: with 5 mono frames and a target of 3 bars
the hop is `max(1, 5 // 3) = 1` and the envelope has 5 bars, so the
claimed bound `len(build(path, n)) <= n` is false. -/
theorem c4_counterexample :
    (buildWaveform (fun _ => 0) ([0, 0, 0, 0, 0] : List ℚ) 3).length = 5
    ∧ ¬ ((buildWaveform (fun _ => 0) ([0, 0, 0, 0, 0] : List ℚ) 3).length ≤ 3) := by
  constructor
  · decide
  · decide

/-- Claim C4, amended: for `n ≥ 1` the builder partitions the mono
signal into contiguous non-overlapping windows of size
`hop = max(1, total // n)` (every window non-empty, all but the last of
size exactly `hop`), and the envelope has exactly `⌈total / hop⌉`
entries — which is positive whenever the source has at least `n` frames,
and is bounded by `2n - 1` but can exceed `n`. -/
theorem c4_partition_amended (rms : List ℚ → ℚ) (mono : List ℚ) (n : Nat)
    (hn : 1 ≤ n) :
    (chunkList (max 1 (mono.length / n) - 1) mono).flatten = mono
    ∧ (∀ c ∈ chunkList (max 1 (mono.length / n) - 1) mono,
        c ≠ [] ∧ c.length ≤ max 1 (mono.length / n))
    ∧ (∀ c ∈ (chunkList (max 1 (mono.length / n) - 1) mono).dropLast,
        c.length = max 1 (mono.length / n))
    ∧ (buildWaveform rms mono n).length =
        (mono.length + (max 1 (mono.length / n) - 1)) / max 1 (mono.length / n)
    ∧ (buildWaveform rms mono n).length ≤ 2 * n - 1
    ∧ (n ≤ mono.length → 1 ≤ (buildWaveform rms mono n).length) := by
  have hhop : 1 ≤ max 1 (mono.length / n) := le_max_left 1 _
  have hrw : max 1 (mono.length / n) - 1 + 1 = max 1 (mono.length / n) := by omega
  have hlen : (buildWaveform rms mono n).length =
      (mono.length + (max 1 (mono.length / n) - 1)) / max 1 (mono.length / n) := by
    unfold buildWaveform
    by_cases hm : mono.length = 0
    · rw [if_pos hm, hm]
      have : mono = [] := List.eq_nil_of_length_eq_zero hm
      simp [Nat.div_eq_of_lt (by omega : max 1 (0 / n) - 1 < max 1 (0 / n))]
    · rw [if_neg hm]
      have hsl : (rmsSamples rms mono n).length =
          (mono.length + (max 1 (mono.length / n) - 1)) / max 1 (mono.length / n) := by
        rw [rmsSamples_eq_map, List.length_map, chunkList_length, hrw]
      by_cases hz : pyMaxQ (rmsSamples rms mono n) 1 = 0
      · rw [if_pos hz]
        exact hsl
      · rw [if_neg hz, List.length_map]
        exact hsl
  refine ⟨chunkList_flatten _ mono, ?_, ?_, hlen, ?_, ?_⟩
  · intro c hc
    exact ⟨chunkList_ne_nil _ mono c hc, hrw ▸ chunkList_le _ mono c hc⟩
  · intro c hc
    exact hrw ▸ chunkList_dropLast _ mono c hc
  · rw [hlen]
    by_cases hcase : mono.length < n
    · have hdn : mono.length / n = 0 := Nat.div_eq_of_lt hcase
      rw [hdn]
      simp only [Nat.max_self, max_eq_left (by omega : 0 ≤ 1)]
      have : (mono.length + (1 - 1)) / 1 = mono.length := by simp
      omega
    · push_neg at hcase
      have hd1 : 1 ≤ mono.length / n := (Nat.one_le_div_iff (by omega)).mpr hcase
      have hmax : max 1 (mono.length / n) = mono.length / n := max_eq_right hd1
      rw [hmax]
      set q := mono.length / n with hq
      have hrq : mono.length < q * n + n := by
        rw [hq]
        exact Nat.lt_div_mul_add (by omega)
      have ha : n - 1 ≤ q * (n - 1) := Nat.le_mul_of_pos_left (n - 1) (by omega)
      have hb : q * (2 * n - 1) = q * n + q * (n - 1) := by
        rw [← Nat.mul_add]
        congr 1
        omega
      rw [Nat.div_le_iff_le_mul_add_pred (by omega : 0 < q)]
      omega
  · intro hcase
    rw [hlen]
    rw [Nat.one_le_div_iff (by omega)]
    omega

/-- Concrete instance of `c4_partition_amended`: 6 frames at 3 bars give
hop 2 and exactly 3 windows. -/
theorem c4_witness :
    (buildWaveform (fun c => c.headD 0) ([1, 2, 3, 4, 5, 6] : List ℚ) 3).length =
      (6 + (max 1 (6 / 3) - 1)) / max 1 (6 / 3) :=
  ((c4_partition_amended (fun c => c.headD 0) ([1, 2, 3, 4, 5, 6] : List ℚ) 3
    (by omega)).2.2.2).1

/-- Claim C5, counterexample: fresh extraction via `_first_tag` does not
trim — an easy-view tag `artist = " x "` produces the textual field
`" x "`, which is neither `None` nor trimmed text, refuting the claimed
invariant. -/
theorem c5_counterexample :
    readTagsFresh
      (some { tags := some { entries := [(kArtist, .vstr ((" x ").toList))],
                             getallAPIC := none },
              pictures := .vnone }) none =
      some { artist := some ((" x ").toList), title := none, label := none,
             genre := none, bpm := none, comments := none, cover_data := none }
    ∧ pyStrip ((" x ").toList) ≠ (" x ").toList := by
  constructor
  · decide
  · decide

/-- Claim C5, amended: a textual field produced by `_first_tag` is
`None` or the `str()` of the first truthy raw tag value (list/tuple
values always resolve to their first element), with no trimming and no
non-emptiness guarantee; the easy-view fields of the fresh-extraction
block of `_read_tags` are exactly `_first_tag` over the documented alias
lists. -/
theorem c5_first_tag_amended :
    (∀ (tags : List (PStr × Val)) (keys : List PStr) (r : PStr),
      firstTag tags keys = some r →
        ∃ k ∈ keys, ∃ v, dictGet tags k = some v ∧ pyTruthy v = true
          ∧ ((∃ vs, v = .vlist vs ∧ r = pyStr (vs.headD .vnone))
             ∨ ((∀ vs, v ≠ .vlist vs) ∧ r = pyStr v)))
    ∧ (∀ (easy : Audio) (full : Option Audio) (info : Info) (tobj : TagsObj),
      easy.tags = some tobj →
      readTagsFresh (some easy) full = some info →
        info.artist = firstTag tobj.entries [kArtist]
        ∧ info.title = firstTag tobj.entries [kTitle]
        ∧ info.label = firstTag tobj.entries
            [kLabel, ("organization").toList, ("publisher").toList]
        ∧ info.genre = firstTag tobj.entries [kGenre, ("tcon").toList]
        ∧ info.bpm = firstTag tobj.entries [kBpm, ("tbpm").toList]) := by
  constructor
  · intro tags keys
    induction keys with
    | nil => intro r hr; simp [firstTag] at hr
    | cons k rest ih =>
      intro r hr
      rw [firstTag] at hr
      cases hd : dictGet tags k with
      | none =>
        simp only [hd] at hr
        obtain ⟨k2, hk2, hrest⟩ := ih r hr
        exact ⟨k2, List.mem_cons_of_mem k hk2, hrest⟩
      | some v =>
        simp only [hd] at hr
        by_cases htr : pyTruthy v = true
        · rw [if_neg (by simp [htr])] at hr
          cases v with
          | vlist vs =>
            exact ⟨k, by simp, .vlist vs, hd, htr,
              Or.inl ⟨vs, rfl, (Option.some.inj hr).symm⟩⟩
          | vnone =>
            exact ⟨k, by simp, _, hd, htr,
              Or.inr ⟨nofun, (Option.some.inj hr).symm⟩⟩
          | vbool b =>
            exact ⟨k, by simp, _, hd, htr,
              Or.inr ⟨nofun, (Option.some.inj hr).symm⟩⟩
          | vint nn =>
            exact ⟨k, by simp, _, hd, htr,
              Or.inr ⟨nofun, (Option.some.inj hr).symm⟩⟩
          | vrat q =>
            exact ⟨k, by simp, _, hd, htr,
              Or.inr ⟨nofun, (Option.some.inj hr).symm⟩⟩
          | vstr s =>
            exact ⟨k, by simp, _, hd, htr,
              Or.inr ⟨nofun, (Option.some.inj hr).symm⟩⟩
          | vbytes b =>
            exact ⟨k, by simp, _, hd, htr,
              Or.inr ⟨nofun, (Option.some.inj hr).symm⟩⟩
          | vdict e =>
            exact ⟨k, by simp, _, hd, htr,
              Or.inr ⟨nofun, (Option.some.inj hr).symm⟩⟩
          | vframe d2 t2 =>
            exact ⟨k, by simp, _, hd, htr,
              Or.inr ⟨nofun, (Option.some.inj hr).symm⟩⟩
          | vother =>
            exact ⟨k, by simp, _, hd, htr,
              Or.inr ⟨nofun, (Option.some.inj hr).symm⟩⟩
        · rw [if_pos (by simp [htr])] at hr
          obtain ⟨k2, hk2, hrest⟩ := ih r hr
          exact ⟨k2, List.mem_cons_of_mem k hk2, hrest⟩
  · intro easy full info tobj heasy hinfo
    simp only [readTagsFresh, heasy] at hinfo
    cases full with
    | none =>
      rw [← Option.some.inj hinfo]
      exact ⟨rfl, rfl, rfl, rfl, rfl⟩
    | some audio =>
      rw [← Option.some.inj hinfo]
      exact ⟨rfl, rfl, rfl, rfl, rfl⟩

/-- Concrete instance of `c5_first_tag_amended`: the untrimmed artist
field of the counterexample record is exactly the `_first_tag` result. -/
theorem c5_witness :
    ({ artist := some ((" x ").toList), title := none, label := none,
       genre := none, bpm := none, comments := none,
       cover_data := none } : Info).artist =
      firstTag [(kArtist, .vstr ((" x ").toList))] [kArtist] :=
  (c5_first_tag_amended.2
    { tags := some { entries := [(kArtist, .vstr ((" x ").toList))],
                     getallAPIC := none },
      pictures := .vnone }
    none
    { artist := some ((" x ").toList), title := none, label := none,
      genre := none, bpm := none, comments := none, cover_data := none }
    { entries := [(kArtist, .vstr ((" x ").toList))], getallAPIC := none }
    rfl rfl).1

/-! ## Camelot soundness lemmas -/

theorem digitVal_bounds (c : Char) (h1 : c.isDigit = true) (h2 : (c == '0') = false) :
    1 ≤ digitVal c ∧ digitVal c ≤ 9 := by
  simp [Char.isDigit] at h1
  obtain ⟨ha, hb⟩ := h1
  have hne : c ≠ '0' := by simpa using h2
  have hv : c.val.toNat ≠ 48 := by
    intro hh
    apply hne
    apply Char.ext
    apply UInt32.ext
    simpa using hh
  have ha2 : 48 ≤ c.val.toNat := ha
  have hb2 : c.val.toNat ≤ 57 := hb
  unfold digitVal
  unfold Char.toNat
  omega

theorem matchModeTail_sound (s : PStr) (j : Nat) (c : Char)
    (h : matchModeTail s j = some c) : c = 'A' ∨ c = 'B' ∨ c = 'a' ∨ c = 'b' := by
  rw [matchModeTail] at h
  rcases hk : s[skipWs s j]? with - | c0
  · simp only [hk] at h
    exact Option.noConfusion h
  · simp only [hk] at h
    by_cases hc : ((c0 == 'A' || c0 == 'B' || c0 == 'a' || c0 == 'b')
        && boundaryAt s (skipWs s j + 1)) = true
    · rw [if_pos hc] at h
      have hc0 : c0 = 'A' ∨ c0 = 'B' ∨ c0 = 'a' ∨ c0 = 'b' := by
        have hor := ((Bool.and_eq_true _ _).mp hc).1
        simp only [Bool.or_eq_true, beq_iff_eq] at hor
        tauto
      rw [← Option.some.inj h]
      exact hc0
    · rw [if_neg hc] at h
      exact Option.noConfusion h

theorem matchTwoDigit_sound (s : PStr) (i : Nat) (n : Nat) (c : Char)
    (h : matchTwoDigit s i = some (n, c)) :
    10 ≤ n ∧ n ≤ 12 ∧ (c = 'A' ∨ c = 'B' ∨ c = 'a' ∨ c = 'b') := by
  rw [matchTwoDigit] at h
  rcases h1 : s[i]? with - | c1 <;> rcases h2 : s[i + 1]? with - | c2 <;>
    simp only [h1, h2] at h <;> try exact Option.noConfusion h
  by_cases hc : (c1 == '1' && (c2 == '0' || c2 == '1' || c2 == '2')) = true
  · rw [if_pos hc] at h
    rcases hmt : matchModeTail s (i + 2) with - | c3
    · rw [hmt] at h
      exact Option.noConfusion h
    · rw [hmt] at h
      simp only [Option.map_some'] at h
      obtain ⟨hn, hc3⟩ := Prod.mk.injEq .. ▸ Option.some.inj h
      have hdig : c2 = '0' ∨ c2 = '1' ∨ c2 = '2' := by
        have hor := ((Bool.and_eq_true _ _).mp hc).2
        simp only [Bool.or_eq_true, beq_iff_eq] at hor
        tauto
      subst hc3
      refine ⟨?_, ?_, matchModeTail_sound s (i + 2) c3 hmt⟩ <;>
        rcases hdig with h0 | h0 | h0 <;> subst h0 <;> rw [← hn] <;> decide
  · rw [if_neg hc] at h
    exact Option.noConfusion h

theorem matchOneDigit_sound (s : PStr) (i : Nat) (n : Nat) (c : Char)
    (h : matchOneDigit s i = some (n, c)) :
    1 ≤ n ∧ n ≤ 9 ∧ (c = 'A' ∨ c = 'B' ∨ c = 'a' ∨ c = 'b') := by
  rw [matchOneDigit] at h
  rcases h1 : s[i]? with - | c1 <;> simp only [h1] at h <;>
    try exact Option.noConfusion h
  by_cases hc : (c1.isDigit && !(c1 == '0')) = true
  · rw [if_pos hc] at h
    rcases hmt : matchModeTail s (i + 1) with - | c3
    · rw [hmt] at h
      exact Option.noConfusion h
    · rw [hmt] at h
      simp only [Option.map_some'] at h
      obtain ⟨hn, hc3⟩ := Prod.mk.injEq .. ▸ Option.some.inj h
      have hand := (Bool.and_eq_true _ _).mp hc
      have hzero : (c1 == '0') = false := by simpa using hand.2
      obtain ⟨hd1, hd2⟩ := digitVal_bounds c1 hand.1 hzero
      subst hc3
      exact ⟨hn ▸ hd1, hn ▸ hd2, matchModeTail_sound s (i + 1) c3 hmt⟩
  · rw [if_neg hc] at h
    exact Option.noConfusion h

theorem matchKeyAt_sound (s : PStr) (i : Nat) (n : Nat) (c : Char)
    (h : matchKeyAt s i = some (n, c)) :
    1 ≤ n ∧ n ≤ 12 ∧ (c = 'A' ∨ c = 'B' ∨ c = 'a' ∨ c = 'b') := by
  rw [matchKeyAt] at h
  by_cases hb : (!boundaryAt s i) = true
  · rw [if_pos hb] at h
    exact Option.noConfusion h
  · rw [if_neg hb] at h
    rcases h2 : matchTwoDigit s i with - | p
    · rw [h2, Option.none_orElse] at h
      obtain ⟨ha1, ha2, ha3⟩ := matchOneDigit_sound s i n c h
      exact ⟨ha1, by omega, ha3⟩
    · rw [h2, Option.some_orElse] at h
      obtain ⟨ha1, ha2, ha3⟩ := matchTwoDigit_sound s i n c (h ▸ h2)
      exact ⟨by omega, ha2, ha3⟩

theorem reSearchKey_sound (s : PStr) (n : Nat) (c : Char)
    (h : reSearchKey s = some (n, c)) :
    1 ≤ n ∧ n ≤ 12 ∧ (c = 'A' ∨ c = 'B' ∨ c = 'a' ∨ c = 'b') := by
  rw [reSearchKey] at h
  obtain ⟨i, -, hi⟩ := List.exists_of_findSome?_eq_some h
  exact matchKeyAt_sound s i n c hi

theorem parseKey_sound (s : PStr) (n : Nat) (m : Char)
    (h : parseKey s = some (n, m)) :
    1 ≤ n ∧ n ≤ 12 ∧ (m = 'A' ∨ m = 'B') := by
  rw [parseKey] at h
  by_cases he : ((pyStrip s).map Char.toUpper).isEmpty = true
  · rw [if_pos he] at h
    exact Option.noConfusion h
  · rw [if_neg he] at h
    rcases hlast : ((pyStrip s).map Char.toUpper).getLast? with - | last <;>
      simp only [hlast] at h <;> try exact Option.noConfusion h
    by_cases hab : (!(last == 'A' || last == 'B')) = true
    · rw [if_pos hab] at h
      exact Option.noConfusion h
    · rw [if_neg hab] at h
      by_cases hdig : (((pyStrip s).map Char.toUpper).dropLast.isEmpty
          || !((pyStrip s).map Char.toUpper).dropLast.all Char.isDigit) = true
      · rw [if_pos hdig] at h
        exact Option.noConfusion h
      · rw [if_neg hdig] at h
        by_cases hrange : (((pyStrip s).map Char.toUpper).dropLast.foldl
            (fun a c => a * 10 + digitVal c) 0 < 1
            || ((pyStrip s).map Char.toUpper).dropLast.foldl
              (fun a c => a * 10 + digitVal c) 0 > 12) = true
        · rw [if_pos hrange] at h
          exact Option.noConfusion h
        · rw [if_neg hrange] at h
          obtain ⟨hn, hm⟩ := Prod.mk.injEq .. ▸ (Option.some.inj h).symm
          simp only [Bool.or_eq_true, not_or, Bool.not_eq_true] at hrange
          have hr2 : ¬ (((pyStrip s).map Char.toUpper).dropLast.foldl
              (fun a c => a * 10 + digitVal c) 0 < 1)
              ∧ ¬ (((pyStrip s).map Char.toUpper).dropLast.foldl
                (fun a c => a * 10 + digitVal c) 0 > 12) := by
            constructor <;> intro hlt <;> simp [hlt] at hrange
          have hm2 : last = 'A' ∨ last = 'B' := by
            have hor : (last == 'A' || last == 'B') = true := by
              cases hq : (last == 'A' || last == 'B') with
              | false => exact absurd (by rw [hq]; decide :
                  (!(last == 'A' || last == 'B')) = true) hab
              | true => rfl
            simp only [Bool.or_eq_true, beq_iff_eq] at hor
            tauto
          subst hn
          subst hm
          exact ⟨by omega, by omega, hm2⟩

/-- Claim C6: both Camelot parsers extract only pairs with number in
`[1, 12]` and mode `A`/`B` (the regex one, case-insensitively and
word-bounded over free-form text, formats the match back as text), and
the spec's concrete examples hold: `"11B" ↦ (11, B)`, `"7a" ↦ (7, A)`,
while `"13A"`, `"house music"` and absent text yield no key. -/
theorem c6_camelot :
    (∀ (s : PStr) (n : Nat) (m : Char), parseKey s = some (n, m) →
      1 ≤ n ∧ n ≤ 12 ∧ (m = 'A' ∨ m = 'B'))
    ∧ (∀ (v : Val) (r : PStr), normalizeCamelotKey v = some r →
      ∃ (n : Nat) (c : Char), 1 ≤ n ∧ n ≤ 12 ∧ (c = 'A' ∨ c = 'B')
        ∧ r = intStr (n : Int) ++ [c])
    ∧ parseKey (("11B").toList) = some (11, 'B')
    ∧ parseKey (("7a").toList) = some (7, 'A')
    ∧ parseKey (("13A").toList) = none
    ∧ parseKey (("house music").toList) = none
    ∧ normalizeCamelotKey (.vstr (("11B").toList)) = some (("11B").toList)
    ∧ normalizeCamelotKey (.vstr (("7a").toList)) = some (("7A").toList)
    ∧ normalizeCamelotKey (.vstr (("13A").toList)) = none
    ∧ normalizeCamelotKey (.vstr (("house music").toList)) = none
    ∧ normalizeCamelotKey .vnone = none := by
  refine ⟨parseKey_sound, ?_, by decide, by decide, by decide, by decide,
    by decide, by decide, by decide, by decide, by decide⟩
  intro v r h
  rw [normalizeCamelotKey] at h
  rcases hsr : reSearchKey ((coerceText v).getD []) with - | p
  · rw [hsr] at h
    exact Option.noConfusion h
  · rw [hsr] at h
    simp only [Option.map_some'] at h
    obtain ⟨hn, hnn, hc⟩ := reSearchKey_sound _ p.1 p.2 (by rw [hsr])
    refine ⟨p.1, p.2.toUpper, hn, hnn, ?_, ?_⟩
    · rcases hc with h0 | h0 | h0 | h0 <;> rw [h0] <;> decide
    · rw [← Option.some.inj h]

/-- Concrete instance of `c6_camelot`: the soundness conjuncts applied
to `"12b"` and to free-form text containing `"12 b"`. -/
theorem c6_witness :
    (1 ≤ 12 ∧ 12 ≤ 12 ∧ (('B' : Char) = 'A' ∨ ('B' : Char) = 'B'))
    ∧ ∃ (n : Nat) (c : Char), 1 ≤ n ∧ n ≤ 12 ∧ (c = 'A' ∨ c = 'B')
        ∧ ("12B").toList = intStr (n : Int) ++ [c] :=
  ⟨c6_camelot.1 (("12b").toList) 12 'B' (by decide),
    c6_camelot.2.1 (.vstr (("mix 12 b").toList)) (("12B").toList) (by decide)⟩

end SaioMusic
